import Mathlib

/-!
Verification of the quadtree spatial index and driver simulation.

The Go sources are embedded shallowly: `float64` values become `ℚ` (the code uses
only field arithmetic and order comparisons on coordinates), methods that mutate a
tree in place become functions returning the updated tree, and the mutually
recursive `Insert` / `subDivide` / `insertIntoChild` cycle — which genuinely fails
to terminate on some inputs — is indexed by explicit fuel, with a dedicated
`outOfFuel` result marking unbounded recursion and a `panicked` result marking the
Go `panic` in `subDivide` (and the nil-pointer dereference that `insertIntoChild`
would perform on an undivided node).
-/

/-- Bounds represents a rectangular area in 2D space (quadtree source, lines 6-9). -/
structure Bounds where
  MinX : ℚ
  MinY : ℚ
  MaxX : ℚ
  MaxY : ℚ
deriving DecidableEq

/-- contains (quadtree source, lines 11-13): inclusive on all four edges. -/
def Bounds.contains (b : Bounds) (x y : ℚ) : Bool :=
  decide (x ≥ b.MinX) && decide (x ≤ b.MaxX) && decide (y ≥ b.MinY) && decide (y ≤ b.MaxY)

/-- Point represents a location in 2D space (quadtree source, lines 16-18). -/
structure Point where
  X : ℚ
  Y : ℚ
deriving DecidableEq

/-- Quadtree (quadtree source, lines 21-28).  The Go struct carries a `divided`
flag together with four child pointers that are nil exactly when `divided` is
false; the two constructors reflect those two pointer states: `leaf` is an
undivided node (nil children), `quad` a divided one (all four children set,
as established atomically by `subDivide`). -/
inductive Quadtree : Type where
  | leaf (capacity : ℕ) (nodes : List Point) (bounds : Bounds) : Quadtree
  | quad (capacity : ℕ) (nodes : List Point) (bounds : Bounds)
      (northWest northEast southWest southEast : Quadtree) : Quadtree
deriving DecidableEq

/-- capacity field accessor. -/
def Quadtree.capacity : Quadtree → ℕ
  | .leaf cap _ _ => cap
  | .quad cap _ _ _ _ _ _ => cap

/-- nodes field accessor. -/
def Quadtree.nodes : Quadtree → List Point
  | .leaf _ ns _ => ns
  | .quad _ ns _ _ _ _ _ => ns

/-- bounds field accessor. -/
def Quadtree.bounds : Quadtree → Bounds
  | .leaf _ _ b => b
  | .quad _ _ b _ _ _ _ => b

/-- divided field accessor: true exactly when the children are present. -/
def Quadtree.divided : Quadtree → Bool
  | .leaf _ _ _ => false
  | .quad _ _ _ _ _ _ _ => true

/-- Replace the nodes field, leaving everything else untouched
(models assignments to `qt.nodes`). -/
def Quadtree.setNodes : Quadtree → List Point → Quadtree
  | .leaf cap _ b, ns => .leaf cap ns b
  | .quad cap _ b nw ne sw se, ns => .quad cap ns b nw ne sw se

/-- New (quadtree source, lines 31-38): fresh undivided node with no points. -/
def Quadtree.New (bounds : Bounds) (capacity : ℕ) : Quadtree :=
  .leaf capacity [] bounds

/-- InsideBounds (quadtree source, lines 182-185): inclusive on all four edges. -/
def Quadtree.InsideBounds (qt : Quadtree) (x y : ℚ) : Bool :=
  decide (x ≥ qt.bounds.MinX) && decide (x ≤ qt.bounds.MaxX) &&
    decide (y ≥ qt.bounds.MinY) && decide (y ≤ qt.bounds.MaxY)

/-- Intersects (quadtree source, lines 175-179): separating-axis test. -/
def Quadtree.Intersects (qt : Quadtree) (b : Bounds) : Bool :=
  !(decide (b.MaxX < qt.bounds.MinX) || decide (b.MinX > qt.bounds.MaxX) ||
    decide (b.MinY > qt.bounds.MaxY) || decide (b.MaxY < qt.bounds.MinY))

/-- Result of an embedded `Insert` call: the updated tree plus the boolean the Go
function returns, or `panicked` (the `panic` in `subDivide`, or the nil-child
dereference `insertIntoChild` would perform on an undivided node), or `outOfFuel`
when the recursion exceeds the fuel bound. -/
inductive InsRes : Type where
  | ok (qt : Quadtree) (inserted : Bool) : InsRes
  | panicked : InsRes
  | outOfFuel : InsRes
deriving DecidableEq

/-- Result of an embedded `subDivide` call. -/
inductive SubRes : Type where
  | ok (qt : Quadtree) : SubRes
  | panicked : SubRes
  | outOfFuel : SubRes
deriving DecidableEq

/-- insertIntoChild (quadtree source, lines 59-74), abstracted over the recursive
`Insert` call `ins`: picks exactly one child by the midpoint tie-break
(`x ≤ midX` selects west, `y ≤ midY` selects south), inserts there, and stores the
updated child back.  On an undivided node the Go code would dereference nil child
pointers, hence `panicked`. -/
def Quadtree.insertIntoChildF (ins : Quadtree → Point → InsRes) :
    Quadtree → Point → InsRes
  | .leaf _ _ _, _ => .panicked
  | .quad cap ns b northWest northEast southWest southEast, node =>
    let midX := (b.MinX + b.MaxX) / 2
    let midY := (b.MinY + b.MaxY) / 2
    if node.X ≤ midX then
      if node.Y ≤ midY then
        match ins southWest node with
        | .ok c r => .ok (.quad cap ns b northWest northEast c southEast) r
        | e => e
      else
        match ins northWest node with
        | .ok c r => .ok (.quad cap ns b c northEast southWest southEast) r
        | e => e
    else
      if node.Y ≤ midY then
        match ins southEast node with
        | .ok c r => .ok (.quad cap ns b northWest northEast southWest c) r
        | e => e
      else
        match ins northEast node with
        | .ok c r => .ok (.quad cap ns b northWest c southWest southEast) r
        | e => e

/-- Redistribution loop of subDivide (quadtree source, lines 111-115): each point
of the parent is pushed into a child via `ic`; a `false` return triggers the Go
`panic("failed to redistribute point during subdivision")`. -/
def Quadtree.redistributeLoopF (ic : Quadtree → Point → InsRes) :
    Quadtree → List Point → SubRes
  | qt, [] => .ok qt
  | qt, n :: rest =>
    match ic qt n with
    | .ok qt' true => Quadtree.redistributeLoopF ic qt' rest
    | .ok _ false => .panicked
    | .panicked => .panicked
    | .outOfFuel => .outOfFuel

/-- North-west child bounds built by subDivide (quadtree source, lines 80-85). -/
def nwBounds (b : Bounds) : Bounds :=
  ⟨b.MinX, (b.MinY + b.MaxY) / 2, (b.MinX + b.MaxX) / 2, b.MaxY⟩

/-- North-east child bounds built by subDivide (quadtree source, lines 87-92). -/
def neBounds (b : Bounds) : Bounds :=
  ⟨(b.MinX + b.MaxX) / 2, (b.MinY + b.MaxY) / 2, b.MaxX, b.MaxY⟩

/-- South-west child bounds built by subDivide (quadtree source, lines 94-99). -/
def swBounds (b : Bounds) : Bounds :=
  ⟨b.MinX, b.MinY, (b.MinX + b.MaxX) / 2, (b.MinY + b.MaxY) / 2⟩

/-- South-east child bounds built by subDivide (quadtree source, lines 101-106). -/
def seBounds (b : Bounds) : Bounds :=
  ⟨(b.MinX + b.MaxX) / 2, b.MinY, b.MaxX, (b.MinY + b.MaxY) / 2⟩

/-- subDivide (quadtree source, lines 76-117), abstracted over the recursive
`Insert` call `ins`: builds the four quarter children with the parent's capacity,
sets `divided`, redistributes every held point into the children (panicking if
any redistribution returns false), and finally clears the parent's point buffer. -/
def Quadtree.subDivideF (ins : Quadtree → Point → InsRes) (qt : Quadtree) : SubRes :=
  let b := qt.bounds
  let northWest := Quadtree.New (nwBounds b) qt.capacity
  let northEast := Quadtree.New (neBounds b) qt.capacity
  let southWest := Quadtree.New (swBounds b) qt.capacity
  let southEast := Quadtree.New (seBounds b) qt.capacity
  let start := Quadtree.quad qt.capacity qt.nodes b northWest northEast southWest southEast
  match Quadtree.redistributeLoopF (Quadtree.insertIntoChildF ins) start qt.nodes with
  | .ok qt' => .ok (qt'.setNodes [])
  | .panicked => .panicked
  | .outOfFuel => .outOfFuel

/-- Insert (quadtree source, lines 40-57), indexed by fuel bounding the recursion
depth.  Outside the bounds: return the tree unchanged with `false`.  Undivided
with spare capacity: append the point.  Otherwise subdivide first if needed, then
insert into the child selected by the midpoint tie-break. -/
def Quadtree.Insert : ℕ → Quadtree → Point → InsRes
  | 0 => fun _ _ => .outOfFuel
  | Nat.succ fuel => fun qt node =>
    if qt.InsideBounds node.X node.Y = false then .ok qt false
    else if decide (qt.nodes.length < qt.capacity) && !qt.divided then
      .ok (qt.setNodes (qt.nodes ++ [node])) true
    else
      match (if !qt.divided then Quadtree.subDivideF (Quadtree.Insert fuel) qt
             else .ok qt) with
      | .ok qt1 => Quadtree.insertIntoChildF (Quadtree.Insert fuel) qt1 node
      | .panicked => .panicked
      | .outOfFuel => .outOfFuel

/-- insertIntoChild at a given fuel level. -/
def Quadtree.insertIntoChild (fuel : ℕ) : Quadtree → Point → InsRes :=
  Quadtree.insertIntoChildF (Quadtree.Insert fuel)

/-- subDivide at a given fuel level. -/
def Quadtree.subDivide (fuel : ℕ) : Quadtree → SubRes :=
  Quadtree.subDivideF (Quadtree.Insert fuel)

/-- InsertAll (quadtree source, lines 120-124) threaded with explicit outcomes:
returns the final tree together with the sublist of points whose Insert returned
true (the successfully inserted points), or `none` if some insert panicked or ran
out of fuel.  The Go original discards each boolean; recording it lets theorems
speak about the successfully-inserted subset. -/
def Quadtree.InsertAllR : ℕ → Quadtree → List Point → Option (Quadtree × List Point)
  | _, qt, [] => some (qt, [])
  | fuel, qt, p :: ps =>
    match Quadtree.Insert fuel qt p with
    | .ok qt' true =>
      match Quadtree.InsertAllR fuel qt' ps with
      | some (qf, acc) => some (qf, p :: acc)
      | none => none
    | .ok qt' false => Quadtree.InsertAllR fuel qt' ps
    | _ => none

/-- Query (quadtree source, lines 127-143): prune subtrees whose bounds do not
intersect the query rectangle, filter the node's own points by containment, and
recurse into all four children of a divided node.  The `results` out-parameter
becomes the returned list, appended in the source's order. -/
def Quadtree.Query : Quadtree → Bounds → List Point
  | .leaf cap ns b, bounds =>
    if Quadtree.Intersects (.leaf cap ns b) bounds = false then []
    else ns.filter (fun node => bounds.contains node.X node.Y)
  | .quad cap ns b nw ne sw se, bounds =>
    if Quadtree.Intersects (.quad cap ns b nw ne sw se) bounds = false then []
    else
      ns.filter (fun node => bounds.contains node.X node.Y) ++
        (Quadtree.Query nw bounds ++ (Quadtree.Query ne bounds ++
          (Quadtree.Query sw bounds ++ Quadtree.Query se bounds)))

/-- QueryResults (quadtree source, lines 153-171): the sync.Pool buffer reuse is
pure allocation behavior; the returned list is exactly the one Query builds. -/
def Quadtree.QueryResults (qt : Quadtree) (bounds : Bounds) : List Point :=
  Quadtree.Query qt bounds

/-! ### Invariants and basic lemmas -/

/-- Unfolding of the inclusive containment test. -/
theorem Bounds.contains_iff {b : Bounds} {x y : ℚ} :
    b.contains x y = true ↔ b.MinX ≤ x ∧ x ≤ b.MaxX ∧ b.MinY ≤ y ∧ y ≤ b.MaxY := by
  simp [Bounds.contains, and_assoc, ge_iff_le]

/-- InsideBounds is the containment test against the node's own bounds. -/
theorem Quadtree.InsideBounds_eq_contains (qt : Quadtree) (x y : ℚ) :
    qt.InsideBounds x y = qt.bounds.contains x y := rfl

/-- Points stored in the whole subtree, parent first, children in NW, NE, SW, SE
order (the traversal order of Query over a covering rectangle). -/
def Quadtree.allPoints : Quadtree → List Point
  | .leaf _ ns _ => ns
  | .quad _ ns _ nw ne sw se =>
    ns ++ (nw.allPoints ++ (ne.allPoints ++ (sw.allPoints ++ se.allPoints)))

/-- Points stored strictly below the node. -/
def Quadtree.childPoints : Quadtree → List Point
  | .leaf _ _ _ => []
  | .quad _ _ _ nw ne sw se =>
    nw.allPoints ++ (ne.allPoints ++ (sw.allPoints ++ se.allPoints))

theorem Quadtree.allPoints_eq_nodes_append (qt : Quadtree) :
    qt.allPoints = qt.nodes ++ qt.childPoints := by
  cases qt <;> simp [Quadtree.allPoints, Quadtree.childPoints, Quadtree.nodes]

/-- Structural well-formedness of every reachable tree: stored points lie inside
the node's bounds, an undivided node respects its capacity, and a divided node
holds no points directly while its children carry the exact quarter bounds and
the inherited capacity. -/
def Quadtree.Inv : Quadtree → Prop
  | .leaf cap ns b => (∀ p ∈ ns, b.contains p.X p.Y = true) ∧ ns.length ≤ cap
  | .quad cap ns b nw ne sw se =>
    ns = [] ∧
    nw.bounds = nwBounds b ∧ ne.bounds = neBounds b ∧
    sw.bounds = swBounds b ∧ se.bounds = seBounds b ∧
    nw.capacity = cap ∧ ne.capacity = cap ∧ sw.capacity = cap ∧ se.capacity = cap ∧
    nw.Inv ∧ ne.Inv ∧ sw.Inv ∧ se.Inv

/-- Well-formedness of a divided node whose own point buffer is still pending
redistribution (the transient state inside subDivide, after `divided` is set but
before `nodes` is cleared). -/
def Quadtree.InvPre : Quadtree → Prop
  | .leaf _ _ _ => False
  | .quad cap _ b nw ne sw se =>
    nw.bounds = nwBounds b ∧ ne.bounds = neBounds b ∧
    sw.bounds = swBounds b ∧ se.bounds = seBounds b ∧
    nw.capacity = cap ∧ ne.capacity = cap ∧ sw.capacity = cap ∧ se.capacity = cap ∧
    nw.Inv ∧ ne.Inv ∧ sw.Inv ∧ se.Inv

theorem Quadtree.InvPre.divided {qt : Quadtree} (h : qt.InvPre) : qt.divided = true := by
  cases qt with
  | leaf cap ns b => exact absurd h (by simp [Quadtree.InvPre])
  | quad cap ns b nw ne sw se => rfl

theorem Quadtree.inv_quad_iff {cap : ℕ} {ns : List Point} {b : Bounds}
    {nw ne sw se : Quadtree} :
    (Quadtree.quad cap ns b nw ne sw se).Inv ↔
      ns = [] ∧ (Quadtree.quad cap ns b nw ne sw se).InvPre := by
  simp [Quadtree.Inv, Quadtree.InvPre, and_assoc]

/-- The node invariant of the spec: an undivided node never holds more than its
capacity, a divided node holds no points directly. -/
def Quadtree.NodeInvariant : Quadtree → Prop
  | .leaf cap ns _ => ns.length ≤ cap
  | .quad _ ns _ nw ne sw se =>
    ns = [] ∧ nw.NodeInvariant ∧ ne.NodeInvariant ∧ sw.NodeInvariant ∧ se.NodeInvariant

theorem Quadtree.Inv.nodeInvariant : ∀ {qt : Quadtree}, qt.Inv → qt.NodeInvariant := by
  intro qt
  induction qt with
  | leaf cap ns b => exact fun h => h.2
  | quad cap ns b nw ne sw se ihnw ihne ihsw ihse =>
    intro h
    obtain ⟨h0, _, _, _, _, _, _, _, _, h1, h2, h3, h4⟩ := h
    exact ⟨h0, ihnw h1, ihne h2, ihsw h3, ihse h4⟩

theorem Quadtree.New_Inv (b : Bounds) (cap : ℕ) : (Quadtree.New b cap).Inv := by
  simp [Quadtree.New, Quadtree.Inv]

/-! ### Geometry of the quarter bounds -/

theorem contains_swBounds {b : Bounds} {x y : ℚ} (h : b.contains x y = true)
    (hx : x ≤ (b.MinX + b.MaxX) / 2) (hy : y ≤ (b.MinY + b.MaxY) / 2) :
    (swBounds b).contains x y = true := by
  rw [Bounds.contains_iff] at h ⊢
  obtain ⟨h1, h2, h3, h4⟩ := h
  exact ⟨h1, hx, h3, hy⟩

theorem contains_nwBounds {b : Bounds} {x y : ℚ} (h : b.contains x y = true)
    (hx : x ≤ (b.MinX + b.MaxX) / 2) (hy : ¬y ≤ (b.MinY + b.MaxY) / 2) :
    (nwBounds b).contains x y = true := by
  rw [Bounds.contains_iff] at h ⊢
  obtain ⟨h1, h2, h3, h4⟩ := h
  exact ⟨h1, hx, le_of_lt (lt_of_not_le hy), h4⟩

theorem contains_seBounds {b : Bounds} {x y : ℚ} (h : b.contains x y = true)
    (hx : ¬x ≤ (b.MinX + b.MaxX) / 2) (hy : y ≤ (b.MinY + b.MaxY) / 2) :
    (seBounds b).contains x y = true := by
  rw [Bounds.contains_iff] at h ⊢
  obtain ⟨h1, h2, h3, h4⟩ := h
  exact ⟨le_of_lt (lt_of_not_le hx), h2, h3, hy⟩

theorem contains_neBounds {b : Bounds} {x y : ℚ} (h : b.contains x y = true)
    (hx : ¬x ≤ (b.MinX + b.MaxX) / 2) (hy : ¬y ≤ (b.MinY + b.MaxY) / 2) :
    (neBounds b).contains x y = true := by
  rw [Bounds.contains_iff] at h ⊢
  obtain ⟨h1, h2, h3, h4⟩ := h
  exact ⟨le_of_lt (lt_of_not_le hx), h2, le_of_lt (lt_of_not_le hy), h4⟩

theorem contains_of_swBounds {b : Bounds} {x y : ℚ}
    (h : (swBounds b).contains x y = true) : b.contains x y = true := by
  rw [Bounds.contains_iff] at h ⊢
  obtain ⟨h1, h2, h3, h4⟩ := h
  simp only [swBounds] at h1 h2 h3 h4
  exact ⟨h1, by linarith, h3, by linarith⟩

theorem contains_of_nwBounds {b : Bounds} {x y : ℚ}
    (h : (nwBounds b).contains x y = true) : b.contains x y = true := by
  rw [Bounds.contains_iff] at h ⊢
  obtain ⟨h1, h2, h3, h4⟩ := h
  simp only [nwBounds] at h1 h2 h3 h4
  exact ⟨h1, by linarith, by linarith, h4⟩

theorem contains_of_seBounds {b : Bounds} {x y : ℚ}
    (h : (seBounds b).contains x y = true) : b.contains x y = true := by
  rw [Bounds.contains_iff] at h ⊢
  obtain ⟨h1, h2, h3, h4⟩ := h
  simp only [seBounds] at h1 h2 h3 h4
  exact ⟨by linarith, h2, h3, by linarith⟩

theorem contains_of_neBounds {b : Bounds} {x y : ℚ}
    (h : (neBounds b).contains x y = true) : b.contains x y = true := by
  rw [Bounds.contains_iff] at h ⊢
  obtain ⟨h1, h2, h3, h4⟩ := h
  simp only [neBounds] at h1 h2 h3 h4
  exact ⟨by linarith, h2, by linarith, h4⟩

/-- Every point stored in a well-formed subtree lies inside the subtree's bounds. -/
theorem Quadtree.allPoints_inside : ∀ {qt : Quadtree}, qt.Inv →
    ∀ p ∈ qt.allPoints, qt.bounds.contains p.X p.Y = true := by
  intro qt
  induction qt with
  | leaf cap ns b =>
    intro h p hp
    exact h.1 p hp
  | quad cap ns b nw ne sw se ihnw ihne ihsw ihse =>
    intro h p hp
    obtain ⟨h0, e1, e2, e3, e4, _, _, _, _, h1, h2, h3, h4⟩ := h
    subst h0
    simp only [Quadtree.allPoints, List.mem_append, List.not_mem_nil, false_or,
      List.nil_append] at hp
    show b.contains p.X p.Y = true
    rcases hp with hp | hp | hp | hp
    · have := ihnw h1 p hp; rw [e1] at this; exact contains_of_nwBounds this
    · have := ihne h2 p hp; rw [e2] at this; exact contains_of_neBounds this
    · have := ihsw h3 p hp; rw [e3] at this; exact contains_of_swBounds this
    · have := ihse h4 p hp; rw [e4] at this; exact contains_of_seBounds this

/-- A rectangle containing a point of the node's bounds intersects those bounds. -/
theorem Quadtree.intersects_of_contains {qt : Quadtree} {b : Bounds} {x y : ℚ}
    (h1 : qt.bounds.contains x y = true) (h2 : b.contains x y = true) :
    qt.Intersects b = true := by
  rw [Bounds.contains_iff] at h1 h2
  obtain ⟨a1, a2, a3, a4⟩ := h1
  obtain ⟨c1, c2, c3, c4⟩ := h2
  simp only [Quadtree.Intersects, Bool.not_eq_true', Bool.or_eq_false_iff,
    decide_eq_false_iff_not, not_lt, not_le]
  refine ⟨⟨⟨by linarith, by linarith⟩, by linarith⟩, by linarith⟩

/-! ### Specifications of the insertion functions -/

/-- What a completed Insert guarantees on a well-formed tree: geometry unchanged,
well-formedness preserved, and the stored multiset grows by exactly the point on
success while the tree is untouched on failure, with success exactly on
containment. -/
def InsertConc (qt : Quadtree) (p : Point) (qt' : Quadtree) (r : Bool) : Prop :=
  qt'.bounds = qt.bounds ∧ qt'.capacity = qt.capacity ∧ qt'.Inv ∧
  (r = true → qt.bounds.contains p.X p.Y = true ∧ qt'.allPoints.Perm (p :: qt.allPoints)) ∧
  (r = false → qt.bounds.contains p.X p.Y = false ∧ qt' = qt)

/-- Specification of an Insert result: never a panic, and `InsertConc` on
completion. -/
def InsResSpec (qt : Quadtree) (p : Point) : InsRes → Prop
  | .ok qt' r => InsertConc qt p qt' r
  | .panicked => False
  | .outOfFuel => True

/-- Insert meets its specification at a given fuel level. -/
def InsertOK (fuel : ℕ) : Prop :=
  ∀ qt p, qt.Inv → InsResSpec qt p (Quadtree.Insert fuel qt p)

/-- What insertIntoChild guarantees on a divided node whose children are
well-formed, for a point inside the node's bounds: the insertion succeeds and
lands in exactly one child. -/
def ChildConc (qt : Quadtree) (p : Point) (qt' : Quadtree) (r : Bool) : Prop :=
  r = true ∧ qt'.InvPre ∧ qt'.nodes = qt.nodes ∧ qt'.bounds = qt.bounds ∧
  qt'.capacity = qt.capacity ∧ qt'.childPoints.Perm (p :: qt.childPoints)

/-- Specification of an insertIntoChild result. -/
def ChildSpec (qt : Quadtree) (p : Point) : InsRes → Prop
  | .ok qt' r => ChildConc qt p qt' r
  | .panicked => False
  | .outOfFuel => True

/-- What the redistribution loop guarantees: every redistributed point lands in
a child, none is lost or duplicated, and the Go panic branch is never taken. -/
def LoopConc (qt : Quadtree) (ps : List Point) (qt' : Quadtree) : Prop :=
  qt'.InvPre ∧ qt'.nodes = qt.nodes ∧ qt'.bounds = qt.bounds ∧
  qt'.capacity = qt.capacity ∧ qt'.childPoints.Perm (ps ++ qt.childPoints)

/-- Specification of a redistribution-loop result. -/
def LoopSpec (qt : Quadtree) (ps : List Point) : SubRes → Prop
  | .ok qt' => LoopConc qt ps qt'
  | .panicked => False
  | .outOfFuel => True

/-- What subDivide guarantees on a well-formed undivided node: the node becomes
divided, geometry is unchanged, and the stored multiset is preserved exactly. -/
def SubConc (qt qt' : Quadtree) : Prop :=
  qt'.Inv ∧ qt'.divided = true ∧ qt'.bounds = qt.bounds ∧
  qt'.capacity = qt.capacity ∧ qt'.allPoints.Perm qt.allPoints

/-- Specification of a subDivide result. -/
def SubSpec (qt : Quadtree) : SubRes → Prop
  | .ok qt' => SubConc qt qt'
  | .panicked => False
  | .outOfFuel => True

/-! ### Small structural lemmas -/

theorem Quadtree.bounds_setNodes (qt : Quadtree) (ns : List Point) :
    (qt.setNodes ns).bounds = qt.bounds := by cases qt <;> rfl

theorem Quadtree.capacity_setNodes (qt : Quadtree) (ns : List Point) :
    (qt.setNodes ns).capacity = qt.capacity := by cases qt <;> rfl

theorem Quadtree.nodes_setNodes (qt : Quadtree) (ns : List Point) :
    (qt.setNodes ns).nodes = ns := by cases qt <;> rfl

theorem Quadtree.divided_setNodes (qt : Quadtree) (ns : List Point) :
    (qt.setNodes ns).divided = qt.divided := by cases qt <;> rfl

theorem Quadtree.childPoints_setNodes (qt : Quadtree) (ns : List Point) :
    (qt.setNodes ns).childPoints = qt.childPoints := by
  cases qt <;> rfl

theorem Quadtree.invPre_setNodes {qt : Quadtree} (h : qt.InvPre) (ns : List Point) :
    (qt.setNodes ns).InvPre := by
  cases qt with
  | leaf => exact absurd h (by simp [Quadtree.InvPre])
  | quad => exact h

theorem Quadtree.inv_of_invPre_nodes_nil {qt : Quadtree} (h : qt.InvPre)
    (hn : qt.nodes = []) : qt.Inv := by
  cases qt with
  | leaf => exact absurd h (by simp [Quadtree.InvPre])
  | quad cap ns b nw ne sw se => exact Quadtree.inv_quad_iff.mpr ⟨hn, h⟩

theorem Quadtree.invPre_of_inv_divided {qt : Quadtree} (h : qt.Inv)
    (hd : qt.divided = true) : qt.InvPre ∧ qt.nodes = [] := by
  cases qt with
  | leaf => simp [Quadtree.divided] at hd
  | quad cap ns b nw ne sw se =>
    have := Quadtree.inv_quad_iff.mp h
    exact ⟨this.2, this.1⟩

/-! ### Permutation helpers for reassembled children -/

theorem perm_bubble {p : Point} {z w : List Point} (a : List Point)
    (h : z.Perm (p :: w)) : (a ++ z).Perm (p :: (a ++ w)) :=
  (h.append_left a).trans List.perm_middle

/-- insertIntoChild on a divided node with well-formed children, for a point
inside the node's bounds, always succeeds, placing the point in exactly the child
selected by the tie-break and leaving everything else untouched. -/
theorem insertIntoChildF_spec (ins : Quadtree → Point → InsRes)
    (hins : ∀ qt p, qt.Inv → InsResSpec qt p (ins qt p)) :
    ∀ qt p, qt.InvPre → qt.bounds.contains p.X p.Y = true →
      ChildSpec qt p (Quadtree.insertIntoChildF ins qt p) := by
  intro qt p hpre hcont
  cases qt with
  | leaf cap ns b => exact absurd hpre (by simp [Quadtree.InvPre])
  | quad cap ns b nw ne sw se =>
    obtain ⟨e1, e2, e3, e4, c1, c2, c3, c4, i1, i2, i3, i4⟩ := hpre
    have hcont' : b.contains p.X p.Y = true := hcont
    by_cases hx : p.X ≤ (b.MinX + b.MaxX) / 2 <;>
      by_cases hy : p.Y ≤ (b.MinY + b.MaxY) / 2
    · -- south-west child
      simp only [Quadtree.insertIntoChildF]
      rw [if_pos hx, if_pos hy]
      have hc : (swBounds b).contains p.X p.Y = true := contains_swBounds hcont' hx hy
      have hs := hins sw p i3
      cases hres : ins sw p with
      | ok c r =>
        rw [hres] at hs
        obtain ⟨hb, hcap, hinv, htrue, hfalse⟩ := hs
        cases r with
        | false =>
          have hcf := (hfalse rfl).1
          rw [e3, hc] at hcf
          exact absurd hcf (by simp)
        | true =>
          refine ⟨rfl, ⟨e1, e2, hb.trans e3, e4, c1, c2, hcap.trans c3, c4, i1, i2, hinv, i4⟩,
            rfl, rfl, rfl, ?_⟩
          have hp := (htrue rfl).2
          show (nw.allPoints ++ (ne.allPoints ++ (c.allPoints ++ se.allPoints))).Perm
            (p :: (nw.allPoints ++ (ne.allPoints ++ (sw.allPoints ++ se.allPoints))))
          exact perm_bubble nw.allPoints
            (perm_bubble ne.allPoints (hp.append_right se.allPoints))
      | panicked => rw [hres] at hs; exact hs.elim
      | outOfFuel => exact trivial
    · -- north-west child
      simp only [Quadtree.insertIntoChildF]
      rw [if_pos hx, if_neg hy]
      have hc : (nwBounds b).contains p.X p.Y = true := contains_nwBounds hcont' hx hy
      have hs := hins nw p i1
      cases hres : ins nw p with
      | ok c r =>
        rw [hres] at hs
        obtain ⟨hb, hcap, hinv, htrue, hfalse⟩ := hs
        cases r with
        | false =>
          have hcf := (hfalse rfl).1
          rw [e1, hc] at hcf
          exact absurd hcf (by simp)
        | true =>
          refine ⟨rfl, ⟨hb.trans e1, e2, e3, e4, hcap.trans c1, c2, c3, c4, hinv, i2, i3, i4⟩,
            rfl, rfl, rfl, ?_⟩
          have hp := (htrue rfl).2
          show (c.allPoints ++ (ne.allPoints ++ (sw.allPoints ++ se.allPoints))).Perm
            (p :: (nw.allPoints ++ (ne.allPoints ++ (sw.allPoints ++ se.allPoints))))
          exact hp.append_right (ne.allPoints ++ (sw.allPoints ++ se.allPoints))
      | panicked => rw [hres] at hs; exact hs.elim
      | outOfFuel => exact trivial
    · -- south-east child
      simp only [Quadtree.insertIntoChildF]
      rw [if_neg hx, if_pos hy]
      have hc : (seBounds b).contains p.X p.Y = true := contains_seBounds hcont' hx hy
      have hs := hins se p i4
      cases hres : ins se p with
      | ok c r =>
        rw [hres] at hs
        obtain ⟨hb, hcap, hinv, htrue, hfalse⟩ := hs
        cases r with
        | false =>
          have hcf := (hfalse rfl).1
          rw [e4, hc] at hcf
          exact absurd hcf (by simp)
        | true =>
          refine ⟨rfl, ⟨e1, e2, e3, hb.trans e4, c1, c2, c3, hcap.trans c4, i1, i2, i3, hinv⟩,
            rfl, rfl, rfl, ?_⟩
          have hp := (htrue rfl).2
          show (nw.allPoints ++ (ne.allPoints ++ (sw.allPoints ++ c.allPoints))).Perm
            (p :: (nw.allPoints ++ (ne.allPoints ++ (sw.allPoints ++ se.allPoints))))
          exact perm_bubble nw.allPoints
            (perm_bubble ne.allPoints (perm_bubble sw.allPoints hp))
      | panicked => rw [hres] at hs; exact hs.elim
      | outOfFuel => exact trivial
    · -- north-east child
      simp only [Quadtree.insertIntoChildF]
      rw [if_neg hx, if_neg hy]
      have hc : (neBounds b).contains p.X p.Y = true := contains_neBounds hcont' hx hy
      have hs := hins ne p i2
      cases hres : ins ne p with
      | ok c r =>
        rw [hres] at hs
        obtain ⟨hb, hcap, hinv, htrue, hfalse⟩ := hs
        cases r with
        | false =>
          have hcf := (hfalse rfl).1
          rw [e2, hc] at hcf
          exact absurd hcf (by simp)
        | true =>
          refine ⟨rfl, ⟨e1, hb.trans e2, e3, e4, c1, hcap.trans c2, c3, c4, i1, hinv, i3, i4⟩,
            rfl, rfl, rfl, ?_⟩
          have hp := (htrue rfl).2
          show (nw.allPoints ++ (c.allPoints ++ (sw.allPoints ++ se.allPoints))).Perm
            (p :: (nw.allPoints ++ (ne.allPoints ++ (sw.allPoints ++ se.allPoints))))
          exact perm_bubble nw.allPoints
            (hp.append_right (sw.allPoints ++ se.allPoints))
      | panicked => rw [hres] at hs; exact hs.elim
      | outOfFuel => exact trivial

/-- The redistribution loop, fed only points inside the node's bounds, never
panics: every point lands in exactly one child and none is lost or duplicated. -/
theorem redistributeLoopF_spec (ic : Quadtree → Point → InsRes)
    (hic : ∀ qt p, qt.InvPre → qt.bounds.contains p.X p.Y = true →
      ChildSpec qt p (ic qt p)) :
    ∀ ps qt, qt.InvPre → (∀ p ∈ ps, qt.bounds.contains p.X p.Y = true) →
      LoopSpec qt ps (Quadtree.redistributeLoopF ic qt ps) := by
  intro ps
  induction ps with
  | nil =>
    intro qt hpre hcont
    exact ⟨hpre, rfl, rfl, rfl, by simp⟩
  | cons n rest ih =>
    intro qt hpre hcont
    simp only [Quadtree.redistributeLoopF]
    have hs := hic qt n hpre (hcont n (by simp))
    cases hres : ic qt n with
    | ok qt1 r =>
      rw [hres] at hs
      obtain ⟨hr, hpre1, hn1, hb1, hc1, hcp1⟩ := hs
      subst hr
      show LoopSpec qt (n :: rest) (Quadtree.redistributeLoopF ic qt1 rest)
      have hcont1 : ∀ p ∈ rest, qt1.bounds.contains p.X p.Y = true := by
        intro p hp
        rw [hb1]
        exact hcont p (by simp [hp])
      have htail := ih qt1 hpre1 hcont1
      cases hres2 : Quadtree.redistributeLoopF ic qt1 rest with
      | ok qtF =>
        rw [hres2] at htail
        obtain ⟨hpreF, hnF, hbF, hcF, hcpF⟩ := htail
        exact ⟨hpreF, hnF.trans hn1, hbF.trans hb1, hcF.trans hc1,
          hcpF.trans ((hcp1.append_left rest).trans List.perm_middle)⟩
      | panicked => rw [hres2] at htail; exact htail.elim
      | outOfFuel => exact trivial
    | panicked => rw [hres] at hs; exact hs.elim
    | outOfFuel => exact trivial

/-- subDivide on a well-formed undivided node completes without panicking,
yields a divided node with the same geometry and capacity, and preserves the
stored multiset exactly (all points redistributed, none lost or duplicated, and
the parent buffer cleared). -/
theorem subDivideF_spec (ins : Quadtree → Point → InsRes)
    (hins : ∀ qt p, qt.Inv → InsResSpec qt p (ins qt p)) :
    ∀ qt, qt.Inv → qt.divided = false →
      SubSpec qt (Quadtree.subDivideF ins qt) := by
  intro qt hInv hdiv
  cases qt with
  | quad => simp [Quadtree.divided] at hdiv
  | leaf cap ns b =>
    obtain ⟨hin, hlen⟩ := hInv
    show SubSpec (Quadtree.leaf cap ns b)
      (match Quadtree.redistributeLoopF (Quadtree.insertIntoChildF ins)
          (Quadtree.quad cap ns b (Quadtree.New (nwBounds b) cap)
            (Quadtree.New (neBounds b) cap) (Quadtree.New (swBounds b) cap)
            (Quadtree.New (seBounds b) cap)) ns with
        | .ok qt' => SubRes.ok (qt'.setNodes [])
        | .panicked => SubRes.panicked
        | .outOfFuel => SubRes.outOfFuel)
    have hpre : (Quadtree.quad cap ns b (Quadtree.New (nwBounds b) cap)
        (Quadtree.New (neBounds b) cap) (Quadtree.New (swBounds b) cap)
        (Quadtree.New (seBounds b) cap)).InvPre :=
      ⟨rfl, rfl, rfl, rfl, rfl, rfl, rfl, rfl,
        Quadtree.New_Inv _ _, Quadtree.New_Inv _ _, Quadtree.New_Inv _ _,
        Quadtree.New_Inv _ _⟩
    have hloop := redistributeLoopF_spec (Quadtree.insertIntoChildF ins)
      (insertIntoChildF_spec ins hins) ns _ hpre hin
    cases hres : Quadtree.redistributeLoopF (Quadtree.insertIntoChildF ins)
        (Quadtree.quad cap ns b (Quadtree.New (nwBounds b) cap)
          (Quadtree.New (neBounds b) cap) (Quadtree.New (swBounds b) cap)
          (Quadtree.New (seBounds b) cap)) ns with
    | ok qt' =>
      rw [hres] at hloop
      obtain ⟨hpre', hn', hb', hc', hcp'⟩ := hloop
      refine ⟨Quadtree.inv_of_invPre_nodes_nil (Quadtree.invPre_setNodes hpre' [])
          (Quadtree.nodes_setNodes qt' []), ?_, ?_, ?_, ?_⟩
      · rw [Quadtree.divided_setNodes]
        exact hpre'.divided
      · rw [Quadtree.bounds_setNodes]
        exact hb'
      · rw [Quadtree.capacity_setNodes]
        exact hc'
      · rw [Quadtree.allPoints_eq_nodes_append, Quadtree.nodes_setNodes,
          Quadtree.childPoints_setNodes, List.nil_append]
        have hstart : (Quadtree.quad cap ns b (Quadtree.New (nwBounds b) cap)
            (Quadtree.New (neBounds b) cap) (Quadtree.New (swBounds b) cap)
            (Quadtree.New (seBounds b) cap)).childPoints = [] := rfl
        rw [hstart, List.append_nil] at hcp'
        exact hcp'
    | panicked => rw [hres] at hloop; exact hloop.elim
    | outOfFuel => exact trivial

/-- Insert meets its specification at every fuel level: on a well-formed tree it
never reaches a panic, and whenever it completes it preserves well-formedness and
geometry, succeeds exactly on containment, and on success adds exactly the given
point to the stored multiset. -/
theorem insert_ok : ∀ fuel, InsertOK fuel := by
  intro fuel
  induction fuel with
  | zero => intro qt p _; exact trivial
  | succ f ih =>
    intro qt p hInv
    simp only [Quadtree.Insert]
    by_cases hib : qt.InsideBounds p.X p.Y = false
    · rw [if_pos hib]
      refine ⟨rfl, rfl, hInv, ?_, ?_⟩
      · intro h; exact absurd h (by simp)
      · intro _
        rw [Quadtree.InsideBounds_eq_contains] at hib
        exact ⟨hib, rfl⟩
    · rw [if_neg hib]
      have hcont : qt.bounds.contains p.X p.Y = true := by
        rw [Quadtree.InsideBounds_eq_contains] at hib
        exact eq_true_of_ne_false hib
      by_cases hcap : (decide (qt.nodes.length < qt.capacity) && !qt.divided) = true
      · rw [if_pos hcap]
        simp only [Bool.and_eq_true, decide_eq_true_eq, Bool.not_eq_true'] at hcap
        obtain ⟨hlt, hdiv⟩ := hcap
        cases qt with
        | quad => simp [Quadtree.divided] at hdiv
        | leaf cap ns b =>
          obtain ⟨hin, hlen⟩ := hInv
          refine ⟨rfl, rfl, ⟨?_, ?_⟩, ?_, ?_⟩
          · intro q hq
            rcases List.mem_append.mp hq with hq | hq
            · exact hin q hq
            · rw [List.mem_singleton.mp hq]
              exact hcont
          · simpa using hlt
          · intro _
            exact ⟨hcont, List.perm_append_singleton p ns⟩
          · intro h; exact absurd h (by simp)
      · rw [if_neg hcap]
        cases hdiv : qt.divided with
        | true =>
          simp only [Bool.not_true, Bool.false_eq_true, if_false]
          obtain ⟨hpre, hnil⟩ := Quadtree.invPre_of_inv_divided hInv hdiv
          have hs := insertIntoChildF_spec (Quadtree.Insert f) ih qt p hpre hcont
          cases hres : Quadtree.insertIntoChildF (Quadtree.Insert f) qt p with
          | ok qt' r =>
            rw [hres] at hs
            obtain ⟨hr, hpre', hn', hb', hc', hcp'⟩ := hs
            subst hr
            refine ⟨hb', hc', Quadtree.inv_of_invPre_nodes_nil hpre' (hn'.trans hnil),
              ?_, ?_⟩
            · intro _
              refine ⟨hcont, ?_⟩
              rw [Quadtree.allPoints_eq_nodes_append, Quadtree.allPoints_eq_nodes_append,
                hn', hnil, List.nil_append, List.nil_append]
              exact hcp'
            · intro h; exact absurd h (by simp)
          | panicked => rw [hres] at hs; exact hs.elim
          | outOfFuel => exact trivial
        | false =>
          simp only [Bool.not_false, if_true]
          have hsub := subDivideF_spec (Quadtree.Insert f) ih qt hInv hdiv
          cases hsres : Quadtree.subDivideF (Quadtree.Insert f) qt with
          | ok qt1 =>
            show InsResSpec qt p (Quadtree.insertIntoChildF (Quadtree.Insert f) qt1 p)
            rw [hsres] at hsub
            obtain ⟨hInv1, hdiv1, hb1, hc1, hap1⟩ := hsub
            obtain ⟨hpre1, hnil1⟩ := Quadtree.invPre_of_inv_divided hInv1 hdiv1
            have hcont1 : qt1.bounds.contains p.X p.Y = true := by rw [hb1]; exact hcont
            have hs := insertIntoChildF_spec (Quadtree.Insert f) ih qt1 p hpre1 hcont1
            cases hres : Quadtree.insertIntoChildF (Quadtree.Insert f) qt1 p with
            | ok qt' r =>
              rw [hres] at hs
              obtain ⟨hr, hpre', hn', hb', hc', hcp'⟩ := hs
              subst hr
              refine ⟨hb'.trans hb1, hc'.trans hc1,
                Quadtree.inv_of_invPre_nodes_nil hpre' (hn'.trans hnil1), ?_, ?_⟩
              · intro _
                refine ⟨hcont, ?_⟩
                have h1 : qt'.allPoints.Perm (p :: qt1.allPoints) := by
                  rw [Quadtree.allPoints_eq_nodes_append, hn', hnil1, List.nil_append,
                    Quadtree.allPoints_eq_nodes_append qt1, hnil1, List.nil_append]
                  exact hcp'
                exact h1.trans (hap1.cons p)
              · intro h; exact absurd h (by simp)
            | panicked => rw [hres] at hs; exact hs.elim
            | outOfFuel => exact trivial
          | panicked => rw [hsres] at hsub; exact hsub.elim
          | outOfFuel => exact trivial

/-- Running InsertAll over a well-formed tree preserves well-formedness and
geometry; the final stored multiset is exactly the successfully-inserted points
on top of the previous contents, and every successfully-inserted point lies
inside the tree bounds. -/
theorem insertAllR_ok (fuel : ℕ) :
    ∀ ps qt qt' acc, qt.Inv → Quadtree.InsertAllR fuel qt ps = some (qt', acc) →
      qt'.Inv ∧ qt'.bounds = qt.bounds ∧ qt'.capacity = qt.capacity ∧
      qt'.allPoints.Perm (acc ++ qt.allPoints) ∧
      (∀ p ∈ acc, qt.bounds.contains p.X p.Y = true) := by
  intro ps
  induction ps with
  | nil =>
    intro qt qt' acc hInv h
    simp only [Quadtree.InsertAllR, Option.some_inj, Prod.mk.injEq] at h
    obtain ⟨h1, h2⟩ := h
    subst h1; subst h2
    exact ⟨hInv, rfl, rfl, by simp, by simp⟩
  | cons p ps ih =>
    intro qt qt' acc hInv h
    have hs := insert_ok fuel qt p hInv
    cases hres : Quadtree.Insert fuel qt p with
    | ok qt1 r =>
      rw [hres] at hs
      obtain ⟨hb1, hc1, hInv1, htrue, hfalse⟩ := hs
      cases r with
      | true =>
        obtain ⟨hcont, hperm⟩ := htrue rfl
        cases hrec : Quadtree.InsertAllR fuel qt1 ps with
        | some t =>
          obtain ⟨qf, accf⟩ := t
          simp only [Quadtree.InsertAllR, hres, hrec, Option.some_inj,
            Prod.mk.injEq] at h
          obtain ⟨h1, h2⟩ := h
          subst h1; subst h2
          obtain ⟨hInvF, hbF, hcF, hpermF, hinF⟩ := ih qt1 qf accf hInv1 hrec
          refine ⟨hInvF, hbF.trans hb1, hcF.trans hc1, ?_, ?_⟩
          · exact hpermF.trans ((hperm.append_left accf).trans List.perm_middle)
          · intro q hq
            rcases List.mem_cons.mp hq with hq | hq
            · subst hq; exact hcont
            · have := hinF q hq
              rw [hb1] at this
              exact this
        | none =>
          simp only [Quadtree.InsertAllR, hres, hrec] at h
          exact absurd h (by simp)
      | false =>
        obtain ⟨hcont, heq⟩ := hfalse rfl
        subst heq
        simp only [Quadtree.InsertAllR, hres] at h
        exact ih _ _ _ hInv h
    | panicked =>
      simp only [Quadtree.InsertAllR, hres] at h
      exact absurd h (by simp)
    | outOfFuel =>
      simp only [Quadtree.InsertAllR, hres] at h
      exact absurd h (by simp)

/-- If a node's bounds do not intersect the query rectangle, none of the points
of a well-formed subtree lies in the rectangle. -/
theorem filter_allPoints_nil {qt : Quadtree} (hInv : qt.Inv) {b : Bounds}
    (hno : qt.Intersects b = false) :
    qt.allPoints.filter (fun p => b.contains p.X p.Y) = [] := by
  rw [List.filter_eq_nil_iff]
  intro p hp hcontains
  have h1 := Quadtree.allPoints_inside hInv p hp
  have h2 := Quadtree.intersects_of_contains h1 (by simpa using hcontains)
  rw [hno] at h2
  exact absurd h2 (by simp)

/-- Query on a well-formed tree returns exactly the stored points that lie in
the query rectangle, in traversal order: the node-bounds intersection test is a
pure pruning step and never drops a stored point. -/
theorem Quadtree.Query_eq_filter : ∀ {qt : Quadtree}, qt.Inv → ∀ b : Bounds,
    qt.Query b = qt.allPoints.filter (fun p => b.contains p.X p.Y) := by
  intro qt
  induction qt with
  | leaf cap ns b0 =>
    intro hInv b
    simp only [Quadtree.Query]
    by_cases hno : Quadtree.Intersects (.leaf cap ns b0) b = false
    · rw [if_pos hno, filter_allPoints_nil hInv hno]
    · rw [if_neg hno]
      rfl
  | quad cap ns b0 nw ne sw se ihnw ihne ihsw ihse =>
    intro hInv b
    obtain ⟨hns, hpre⟩ := Quadtree.inv_quad_iff.mp hInv
    obtain ⟨e1, e2, e3, e4, c1, c2, c3, c4, i1, i2, i3, i4⟩ := hpre
    simp only [Quadtree.Query]
    by_cases hno : Quadtree.Intersects (.quad cap ns b0 nw ne sw se) b = false
    · rw [if_pos hno, filter_allPoints_nil hInv hno]
    · rw [if_neg hno]
      show ns.filter _ ++ _ = (ns ++ (nw.allPoints ++ (ne.allPoints ++
        (sw.allPoints ++ se.allPoints)))).filter _
      rw [List.filter_append, List.filter_append, List.filter_append,
        List.filter_append, ihnw i1 b, ihne i2 b, ihsw i3 b, ihse i4 b]

/-! ### Claim theorems: quadtree -/

/-- C1: for every finite set of points successfully inserted into a quadtree and
every query rectangle, Query returns a point iff that point was inserted and lies
within the query rectangle, containment inclusive on every edge (`Bounds.contains`
uses `≥`/`≤` on all four sides) — i.e. membership in the query result agrees with
a brute-force scan of the successfully-inserted points. -/
theorem claim_C1_query_containment (fuel : ℕ) (b0 : Bounds) (cap : ℕ)
    (ps : List Point) (qt' : Quadtree) (acc : List Point) (b : Bounds) (p : Point)
    (h : Quadtree.InsertAllR fuel (Quadtree.New b0 cap) ps = some (qt', acc)) :
    p ∈ qt'.Query b ↔ p ∈ acc ∧ b.contains p.X p.Y = true := by
  obtain ⟨hInv, hb, hc, hperm, hin⟩ :=
    insertAllR_ok fuel ps _ qt' acc (Quadtree.New_Inv b0 cap) h
  rw [show (Quadtree.New b0 cap).allPoints = [] from rfl, List.append_nil] at hperm
  rw [Quadtree.Query_eq_filter hInv b, List.mem_filter, hperm.mem_iff]

/-- C1 witness: the spec scenario — world (0,0)-(10,10), capacity 4, the five
points (1,1)..(5,5) all successfully inserted (one subdivision), queried with the
rectangle (4,4)-(10,10) at the point (5,5). -/
def demoWorld : Bounds := ⟨0, 0, 10, 10⟩

/-- Demo insertion sequence from the spec scenario. -/
def demoPoints : List Point := [⟨1,1⟩, ⟨2,2⟩, ⟨3,3⟩, ⟨4,4⟩, ⟨5,5⟩]

/-- The tree and successfully-inserted list built from the demo sequence. -/
def demoBuilt : Quadtree × List Point :=
  (Quadtree.InsertAllR 20 (Quadtree.New demoWorld 4) demoPoints).getD
    (Quadtree.New demoWorld 4, [])

theorem claim_C1_query_containment_witness :
    (⟨5,5⟩ : Point) ∈ demoBuilt.1.Query ⟨4, 4, 10, 10⟩ ↔
      (⟨5,5⟩ : Point) ∈ demoBuilt.2 ∧
        Bounds.contains ⟨4, 4, 10, 10⟩ (Point.mk 5 5).X (Point.mk 5 5).Y = true :=
  claim_C1_query_containment 20 demoWorld 4 demoPoints demoBuilt.1 demoBuilt.2
    ⟨4, 4, 10, 10⟩ ⟨5,5⟩ (by with_unfolding_all decide)

/-- C2: after any insertion sequence (in particular ones that trigger
subdivisions), a query covering the whole world bounds returns exactly the
multiset of successfully-inserted points: nothing lost, nothing duplicated. -/
theorem claim_C2_no_loss_no_duplication (fuel : ℕ) (b0 : Bounds) (cap : ℕ)
    (ps : List Point) (qt' : Quadtree) (acc : List Point)
    (h : Quadtree.InsertAllR fuel (Quadtree.New b0 cap) ps = some (qt', acc)) :
    (qt'.Query b0).Perm acc := by
  obtain ⟨hInv, hb, hc, hperm, hin⟩ :=
    insertAllR_ok fuel ps _ qt' acc (Quadtree.New_Inv b0 cap) h
  rw [show (Quadtree.New b0 cap).allPoints = [] from rfl, List.append_nil] at hperm
  rw [Quadtree.Query_eq_filter hInv b0]
  have hall : ∀ p ∈ qt'.allPoints, b0.contains p.X p.Y = true := by
    intro p hp
    have := Quadtree.allPoints_inside hInv p hp
    rw [hb] at this
    exact this
  rw [List.filter_eq_self.mpr hall]
  exact hperm

theorem claim_C2_no_loss_no_duplication_witness :
    (demoBuilt.1.Query demoWorld).Perm demoBuilt.2 :=
  claim_C2_no_loss_no_duplication 20 demoWorld 4 demoPoints demoBuilt.1 demoBuilt.2
    (by with_unfolding_all decide)

/-- An insertIntoChild call that completes always returns a divided node. -/
theorem insertIntoChildF_ok_divided (ins : Quadtree → Point → InsRes)
    (qt : Quadtree) (p : Point) (qt' : Quadtree) (r : Bool)
    (h : Quadtree.insertIntoChildF ins qt p = .ok qt' r) : qt'.divided = true := by
  cases qt with
  | leaf cap ns b => simp [Quadtree.insertIntoChildF] at h
  | quad cap ns b nw ne sw se =>
    simp only [Quadtree.insertIntoChildF] at h
    by_cases hx : p.X ≤ (b.MinX + b.MaxX) / 2 <;>
      by_cases hy : p.Y ≤ (b.MinY + b.MaxY) / 2
    · rw [if_pos hx, if_pos hy] at h
      cases hm : ins sw p with
      | ok c r0 => simp only [hm] at h; injection h with h1 h2; rw [← h1]; rfl
      | panicked => simp only [hm] at h; exact absurd h (by simp)
      | outOfFuel => simp only [hm] at h; exact absurd h (by simp)
    · rw [if_pos hx, if_neg hy] at h
      cases hm : ins nw p with
      | ok c r0 => simp only [hm] at h; injection h with h1 h2; rw [← h1]; rfl
      | panicked => simp only [hm] at h; exact absurd h (by simp)
      | outOfFuel => simp only [hm] at h; exact absurd h (by simp)
    · rw [if_neg hx, if_pos hy] at h
      cases hm : ins se p with
      | ok c r0 => simp only [hm] at h; injection h with h1 h2; rw [← h1]; rfl
      | panicked => simp only [hm] at h; exact absurd h (by simp)
      | outOfFuel => simp only [hm] at h; exact absurd h (by simp)
    · rw [if_neg hx, if_neg hy] at h
      cases hm : ins ne p with
      | ok c r0 => simp only [hm] at h; injection h with h1 h2; rw [← h1]; rfl
      | panicked => simp only [hm] at h; exact absurd h (by simp)
      | outOfFuel => simp only [hm] at h; exact absurd h (by simp)

/-- C3: after any insertion sequence every node satisfies the capacity
invariant — an undivided node holds at most its capacity of points and a divided
node holds none directly — and an insertion that completes successfully on a full
undivided node yields a divided node (the node subdivides before the point is
placed). -/
theorem claim_C3_capacity_invariant :
    (∀ fuel b0 cap ps qt' acc,
        Quadtree.InsertAllR fuel (Quadtree.New b0 cap) ps = some (qt', acc) →
        qt'.NodeInvariant) ∧
    (∀ fuel qt p qt' r, qt.divided = false → ¬(qt.nodes.length < qt.capacity) →
        Quadtree.Insert fuel qt p = .ok qt' r → r = true → qt'.divided = true) := by
  constructor
  · intro fuel b0 cap ps qt' acc h
    exact (insertAllR_ok fuel ps _ qt' acc (Quadtree.New_Inv b0 cap) h).1.nodeInvariant
  · intro fuel qt p qt' r hdiv hfull h hr
    subst hr
    cases fuel with
    | zero => exact absurd h (by simp [Quadtree.Insert])
    | succ f =>
      simp only [Quadtree.Insert] at h
      by_cases hib : qt.InsideBounds p.X p.Y = false
      · rw [if_pos hib] at h
        injection h with h1 h2
        exact absurd h2 (by simp)
      · rw [if_neg hib] at h
        have hcap : ¬((decide (qt.nodes.length < qt.capacity) && !qt.divided) = true) := by
          simp [hfull]
        rw [if_neg hcap] at h
        rw [hdiv] at h
        simp only [Bool.not_false, if_true] at h
        cases hsres : Quadtree.subDivideF (Quadtree.Insert f) qt with
        | ok qt1 =>
          rw [hsres] at h
          exact insertIntoChildF_ok_divided (Quadtree.Insert f) qt1 p qt' true h
        | panicked => rw [hsres] at h; exact absurd h (by simp)
        | outOfFuel => rw [hsres] at h; exact absurd h (by simp)

/-- Concrete full-node insertion: a capacity-1 undivided node holding (2,2) that
receives (3,3); both points end up in children of the now-divided node. -/
def demoStep : Quadtree × Bool :=
  match Quadtree.Insert 20 (Quadtree.leaf 1 [⟨2,2⟩] demoWorld) ⟨3,3⟩ with
  | .ok q r => (q, r)
  | _ => (Quadtree.New demoWorld 1, false)

theorem claim_C3_capacity_invariant_witness :
    demoBuilt.1.NodeInvariant ∧ demoStep.1.divided = true := by
  constructor
  · exact claim_C3_capacity_invariant.1 20 demoWorld 4 demoPoints demoBuilt.1
      demoBuilt.2 (by with_unfolding_all decide)
  · exact claim_C3_capacity_invariant.2 20 (Quadtree.leaf 1 [⟨2,2⟩] demoWorld)
      ⟨3,3⟩ demoStep.1 demoStep.2 (by with_unfolding_all decide)
      (by with_unfolding_all decide) (by with_unfolding_all decide)
      (by with_unfolding_all decide)

/-- C4: on a well-formed tree, Insert never reaches the Go panic: every point a
node holds lies within its bounds, so redistribution during subdivision always
succeeds and the fatal-error branch is unreachable. -/
theorem claim_C4_panic_unreachable (fuel : ℕ) (qt : Quadtree) (p : Point)
    (hInv : qt.Inv) : Quadtree.Insert fuel qt p ≠ InsRes.panicked := by
  intro hcontra
  have hs := insert_ok fuel qt p hInv
  rw [hcontra] at hs
  exact hs

theorem claim_C4_panic_unreachable_witness :
    Quadtree.Insert 20 (Quadtree.leaf 1 [⟨2,2⟩] demoWorld) ⟨3,3⟩ ≠ InsRes.panicked :=
  claim_C4_panic_unreachable 20 (Quadtree.leaf 1 [⟨2,2⟩] demoWorld) ⟨3,3⟩
    (by refine ⟨fun p hp => ?_, by simp⟩
        rw [List.mem_singleton.mp hp]
        with_unfolding_all decide)

/-- C5: whenever Insert completes on a well-formed tree, it returns false exactly
when the point lies outside the node's bounds; the bounds test is inclusive on
all four edges, so a boundary point is always accepted and retained. -/
theorem claim_C5_insert_false_iff_outside (fuel : ℕ) (qt : Quadtree) (p : Point)
    (qt' : Quadtree) (r : Bool) (hInv : qt.Inv)
    (h : Quadtree.Insert fuel qt p = .ok qt' r) :
    r = false ↔ ¬(qt.InsideBounds p.X p.Y = true) := by
  have hs := insert_ok fuel qt p hInv
  rw [h] at hs
  obtain ⟨-, -, -, htrue, hfalse⟩ := hs
  constructor
  · intro hr
    rw [Quadtree.InsideBounds_eq_contains, (hfalse hr).1]
    simp
  · intro hnot
    cases r with
    | false => rfl
    | true =>
      have := (htrue rfl).1
      rw [Quadtree.InsideBounds_eq_contains] at hnot
      exact absurd this hnot

theorem claim_C5_insert_false_iff_outside_witness :
    (true = false ↔
      ¬((Quadtree.New demoWorld 4).InsideBounds (Point.mk 10 10).X (Point.mk 10 10).Y = true)) :=
  claim_C5_insert_false_iff_outside 20 (Quadtree.New demoWorld 4) ⟨10, 10⟩
    (Quadtree.leaf 4 [⟨10, 10⟩] demoWorld) true (Quadtree.New_Inv demoWorld 4)
    (by with_unfolding_all decide)

/-- A full capacity-1 undivided node asked to insert a second copy of the very
point it already holds never completes, for any fuel: the subdivision sends both
copies into the same quarter, which is again a full capacity-1 node holding the
point, so the recursion descends for ever. -/
theorem insert_full_coincident : ∀ (fuel : ℕ) (b : Bounds) (p : Point),
    b.contains p.X p.Y = true →
    Quadtree.Insert fuel (Quadtree.leaf 1 [p] b) p = .outOfFuel := by
  intro fuel
  induction fuel with
  | zero => intro b p hcont; rfl
  | succ f ih =>
    intro b p hcont
    have hib : (Quadtree.leaf 1 [p] b).InsideBounds p.X p.Y = true := hcont
    simp only [Quadtree.Insert]
    have h1 : ¬((Quadtree.leaf 1 [p] b).InsideBounds p.X p.Y = false) := by
      simp [hib]
    rw [if_neg h1]
    have h2 : ¬((decide ((Quadtree.leaf 1 [p] b).nodes.length <
        (Quadtree.leaf 1 [p] b).capacity) && !(Quadtree.leaf 1 [p] b).divided) = true) := by
      simp [Quadtree.nodes, Quadtree.capacity]
    rw [if_neg h2]
    have h3 : (!(Quadtree.leaf 1 [p] b).divided) = true := by
      simp [Quadtree.divided]
    rw [if_pos h3]
    by_cases hx : p.X ≤ (b.MinX + b.MaxX) / 2 <;>
      by_cases hy : p.Y ≤ (b.MinY + b.MaxY) / 2
    · -- both copies head for the south-west quarter
      have hc := contains_swBounds hcont hx hy
      cases f with
      | zero =>
        have hsub : Quadtree.subDivideF (Quadtree.Insert 0) (Quadtree.leaf 1 [p] b) =
            .outOfFuel := by
          simp only [Quadtree.subDivideF, Quadtree.capacity, Quadtree.nodes,
            Quadtree.bounds, Quadtree.redistributeLoopF, Quadtree.insertIntoChildF]
          rw [if_pos hx, if_pos hy]
          rfl
        rw [hsub]
      | succ f2 =>
        have hin : ¬((Quadtree.New (swBounds b) 1).InsideBounds p.X p.Y = false) := by
          rw [Quadtree.InsideBounds_eq_contains]
          show ¬((swBounds b).contains p.X p.Y = false)
          simp [hc]
        have hcap : (decide ((Quadtree.New (swBounds b) 1).nodes.length <
            (Quadtree.New (swBounds b) 1).capacity) &&
            !(Quadtree.New (swBounds b) 1).divided) = true := by
          simp [Quadtree.New, Quadtree.nodes, Quadtree.capacity, Quadtree.divided]
        have hstep : Quadtree.Insert (f2 + 1) (Quadtree.New (swBounds b) 1) p =
            .ok (Quadtree.leaf 1 [p] (swBounds b)) true := by
          simp only [Quadtree.Insert]
          rw [if_neg hin, if_pos hcap]
          rfl
        have hsub : Quadtree.subDivideF (Quadtree.Insert (f2 + 1))
            (Quadtree.leaf 1 [p] b) =
            .ok (Quadtree.quad 1 [] b (Quadtree.New (nwBounds b) 1)
              (Quadtree.New (neBounds b) 1) (Quadtree.leaf 1 [p] (swBounds b))
              (Quadtree.New (seBounds b) 1)) := by
          simp only [Quadtree.subDivideF, Quadtree.capacity, Quadtree.nodes,
            Quadtree.bounds, Quadtree.redistributeLoopF, Quadtree.insertIntoChildF]
          rw [if_pos hx, if_pos hy, hstep]
          rfl
        rw [hsub]
        show Quadtree.insertIntoChildF (Quadtree.Insert (f2 + 1))
          (Quadtree.quad 1 [] b (Quadtree.New (nwBounds b) 1)
            (Quadtree.New (neBounds b) 1) (Quadtree.leaf 1 [p] (swBounds b))
            (Quadtree.New (seBounds b) 1)) p = .outOfFuel
        simp only [Quadtree.insertIntoChildF]
        rw [if_pos hx, if_pos hy, ih (swBounds b) p hc]
    · -- both copies head for the north-west quarter
      have hc := contains_nwBounds hcont hx hy
      cases f with
      | zero =>
        have hsub : Quadtree.subDivideF (Quadtree.Insert 0) (Quadtree.leaf 1 [p] b) =
            .outOfFuel := by
          simp only [Quadtree.subDivideF, Quadtree.capacity, Quadtree.nodes,
            Quadtree.bounds, Quadtree.redistributeLoopF, Quadtree.insertIntoChildF]
          rw [if_pos hx, if_neg hy]
          rfl
        rw [hsub]
      | succ f2 =>
        have hin : ¬((Quadtree.New (nwBounds b) 1).InsideBounds p.X p.Y = false) := by
          rw [Quadtree.InsideBounds_eq_contains]
          show ¬((nwBounds b).contains p.X p.Y = false)
          simp [hc]
        have hcap : (decide ((Quadtree.New (nwBounds b) 1).nodes.length <
            (Quadtree.New (nwBounds b) 1).capacity) &&
            !(Quadtree.New (nwBounds b) 1).divided) = true := by
          simp [Quadtree.New, Quadtree.nodes, Quadtree.capacity, Quadtree.divided]
        have hstep : Quadtree.Insert (f2 + 1) (Quadtree.New (nwBounds b) 1) p =
            .ok (Quadtree.leaf 1 [p] (nwBounds b)) true := by
          simp only [Quadtree.Insert]
          rw [if_neg hin, if_pos hcap]
          rfl
        have hsub : Quadtree.subDivideF (Quadtree.Insert (f2 + 1))
            (Quadtree.leaf 1 [p] b) =
            .ok (Quadtree.quad 1 [] b (Quadtree.leaf 1 [p] (nwBounds b))
              (Quadtree.New (neBounds b) 1) (Quadtree.New (swBounds b) 1)
              (Quadtree.New (seBounds b) 1)) := by
          simp only [Quadtree.subDivideF, Quadtree.capacity, Quadtree.nodes,
            Quadtree.bounds, Quadtree.redistributeLoopF, Quadtree.insertIntoChildF]
          rw [if_pos hx, if_neg hy, hstep]
          rfl
        rw [hsub]
        show Quadtree.insertIntoChildF (Quadtree.Insert (f2 + 1))
          (Quadtree.quad 1 [] b (Quadtree.leaf 1 [p] (nwBounds b))
            (Quadtree.New (neBounds b) 1) (Quadtree.New (swBounds b) 1)
            (Quadtree.New (seBounds b) 1)) p = .outOfFuel
        simp only [Quadtree.insertIntoChildF]
        rw [if_pos hx, if_neg hy, ih (nwBounds b) p hc]
    · -- both copies head for the south-east quarter
      have hc := contains_seBounds hcont hx hy
      cases f with
      | zero =>
        have hsub : Quadtree.subDivideF (Quadtree.Insert 0) (Quadtree.leaf 1 [p] b) =
            .outOfFuel := by
          simp only [Quadtree.subDivideF, Quadtree.capacity, Quadtree.nodes,
            Quadtree.bounds, Quadtree.redistributeLoopF, Quadtree.insertIntoChildF]
          rw [if_neg hx, if_pos hy]
          rfl
        rw [hsub]
      | succ f2 =>
        have hin : ¬((Quadtree.New (seBounds b) 1).InsideBounds p.X p.Y = false) := by
          rw [Quadtree.InsideBounds_eq_contains]
          show ¬((seBounds b).contains p.X p.Y = false)
          simp [hc]
        have hcap : (decide ((Quadtree.New (seBounds b) 1).nodes.length <
            (Quadtree.New (seBounds b) 1).capacity) &&
            !(Quadtree.New (seBounds b) 1).divided) = true := by
          simp [Quadtree.New, Quadtree.nodes, Quadtree.capacity, Quadtree.divided]
        have hstep : Quadtree.Insert (f2 + 1) (Quadtree.New (seBounds b) 1) p =
            .ok (Quadtree.leaf 1 [p] (seBounds b)) true := by
          simp only [Quadtree.Insert]
          rw [if_neg hin, if_pos hcap]
          rfl
        have hsub : Quadtree.subDivideF (Quadtree.Insert (f2 + 1))
            (Quadtree.leaf 1 [p] b) =
            .ok (Quadtree.quad 1 [] b (Quadtree.New (nwBounds b) 1)
              (Quadtree.New (neBounds b) 1) (Quadtree.New (swBounds b) 1)
              (Quadtree.leaf 1 [p] (seBounds b))) := by
          simp only [Quadtree.subDivideF, Quadtree.capacity, Quadtree.nodes,
            Quadtree.bounds, Quadtree.redistributeLoopF, Quadtree.insertIntoChildF]
          rw [if_neg hx, if_pos hy, hstep]
          rfl
        rw [hsub]
        show Quadtree.insertIntoChildF (Quadtree.Insert (f2 + 1))
          (Quadtree.quad 1 [] b (Quadtree.New (nwBounds b) 1)
            (Quadtree.New (neBounds b) 1) (Quadtree.New (swBounds b) 1)
            (Quadtree.leaf 1 [p] (seBounds b))) p = .outOfFuel
        simp only [Quadtree.insertIntoChildF]
        rw [if_neg hx, if_pos hy, ih (seBounds b) p hc]
    · -- both copies head for the north-east quarter
      have hc := contains_neBounds hcont hx hy
      cases f with
      | zero =>
        have hsub : Quadtree.subDivideF (Quadtree.Insert 0) (Quadtree.leaf 1 [p] b) =
            .outOfFuel := by
          simp only [Quadtree.subDivideF, Quadtree.capacity, Quadtree.nodes,
            Quadtree.bounds, Quadtree.redistributeLoopF, Quadtree.insertIntoChildF]
          rw [if_neg hx, if_neg hy]
          rfl
        rw [hsub]
      | succ f2 =>
        have hin : ¬((Quadtree.New (neBounds b) 1).InsideBounds p.X p.Y = false) := by
          rw [Quadtree.InsideBounds_eq_contains]
          show ¬((neBounds b).contains p.X p.Y = false)
          simp [hc]
        have hcap : (decide ((Quadtree.New (neBounds b) 1).nodes.length <
            (Quadtree.New (neBounds b) 1).capacity) &&
            !(Quadtree.New (neBounds b) 1).divided) = true := by
          simp [Quadtree.New, Quadtree.nodes, Quadtree.capacity, Quadtree.divided]
        have hstep : Quadtree.Insert (f2 + 1) (Quadtree.New (neBounds b) 1) p =
            .ok (Quadtree.leaf 1 [p] (neBounds b)) true := by
          simp only [Quadtree.Insert]
          rw [if_neg hin, if_pos hcap]
          rfl
        have hsub : Quadtree.subDivideF (Quadtree.Insert (f2 + 1))
            (Quadtree.leaf 1 [p] b) =
            .ok (Quadtree.quad 1 [] b (Quadtree.New (nwBounds b) 1)
              (Quadtree.leaf 1 [p] (neBounds b)) (Quadtree.New (swBounds b) 1)
              (Quadtree.New (seBounds b) 1)) := by
          simp only [Quadtree.subDivideF, Quadtree.capacity, Quadtree.nodes,
            Quadtree.bounds, Quadtree.redistributeLoopF, Quadtree.insertIntoChildF]
          rw [if_neg hx, if_neg hy, hstep]
          rfl
        rw [hsub]
        show Quadtree.insertIntoChildF (Quadtree.Insert (f2 + 1))
          (Quadtree.quad 1 [] b (Quadtree.New (nwBounds b) 1)
            (Quadtree.leaf 1 [p] (neBounds b)) (Quadtree.New (swBounds b) 1)
            (Quadtree.New (seBounds b) 1)) p = .outOfFuel
        simp only [Quadtree.insertIntoChildF]
        rw [if_neg hx, if_neg hy, ih (neBounds b) p hc]

/-- C6: insertion does NOT always terminate.  In the world (0,0)-(10,10) with
capacity 1, the first Insert of (1,1) succeeds, but a second Insert of the very
same point exhausts any amount of fuel: the node is full, subdivides, and both
coincident copies select the same quarter for ever (in Go, unbounded recursion
ending in a stack overflow). -/
theorem claim_C6_coincident_insert_diverges : ∀ fuel : ℕ,
    Quadtree.Insert (fuel + 1) (Quadtree.New ⟨0, 0, 10, 10⟩ 1) ⟨1, 1⟩ =
      .ok (Quadtree.leaf 1 [⟨1, 1⟩] ⟨0, 0, 10, 10⟩) true ∧
    Quadtree.Insert fuel (Quadtree.leaf 1 [⟨1, 1⟩] ⟨0, 0, 10, 10⟩) ⟨1, 1⟩ =
      .outOfFuel := by
  intro fuel
  constructor
  · simp only [Quadtree.Insert]
    split
    next h => exact absurd h (by with_unfolding_all decide)
    next h =>
      split
      next h2 => rfl
      next h2 => exact absurd (by with_unfolding_all decide) h2
  · exact insert_full_coincident fuel ⟨0, 0, 10, 10⟩ ⟨1, 1⟩ (by with_unfolding_all decide)

/-! ### Simulation embedding (main.go)

`float64` becomes `ℚ`; `math.Sin`, `math.Cos` and `math.Pi` are parameters of the
embedding (`sinF`, `cosF`, `pi`), since the heading and displacement logic uses
them only through field arithmetic; the stream of `r.Float64()` draws becomes an
explicit record with one field per draw site, each quantified over `[0,1)`. -/

/-- World bounds constant minLon = 42.5 (main.go line 23). -/
def minLon : ℚ := 85/2

/-- World bounds constant minLat = 35.5 (main.go line 23). -/
def minLat : ℚ := 71/2

/-- World bounds constant maxLon = 44.5 (main.go line 24). -/
def maxLon : ℚ := 89/2

/-- World bounds constant maxLat = 37.5 (main.go line 24). -/
def maxLat : ℚ := 75/2

/-- searchRadius = 0.15 degrees (main.go line 28). -/
def searchRadius : ℚ := 3/20

/-- maxSpeed = 0.0001 degrees per second (main.go line 29). -/
def maxSpeed : ℚ := 1/10000

/-- minSpeed = 0.00005 degrees per second (main.go line 30). -/
def minSpeed : ℚ := 1/20000

/-- driverStatusProbs = 0.7 (main.go line 34). -/
def driverStatusProbs : ℚ := 7/10

/-- turnProbability = 0.05 (main.go line 37). -/
def turnProbability : ℚ := 1/20

/-- turnMaxAngle = 0.15 (main.go line 38). -/
def turnMaxAngle : ℚ := 3/20

/-- accelerationProb = 0.05 (main.go line 39). -/
def accelerationProb : ℚ := 1/20

/-- accelerationMax = 0.15 (main.go line 40). -/
def accelerationMax : ℚ := 3/20

/-- boundaryBuffer = 0.01 (main.go line 159). -/
def boundaryBuffer : ℚ := 1/100

/-- DriverStatus (main.go lines 50-56). -/
inductive DriverStatus : Type where
  | Available : DriverStatus
  | Busy : DriverStatus
  | Offline : DriverStatus
deriving DecidableEq

/-- Driver (main.go lines 72-80); the mutex field is synchronization, not data. -/
structure Driver where
  ID : ℤ
  Lon : ℚ
  Lat : ℚ
  Status : DriverStatus
  Speed : ℚ
  Heading : ℚ
deriving DecidableEq

/-- One record of the `r.Float64()` draws a single Move step may consume, one
field per draw site in source order (fields for branches not taken are unused). -/
structure MoveRand where
  turnRoll : ℚ
  turnU : ℚ
  accRoll : ℚ
  accU : ℚ
  westU : ℚ
  eastU : ℚ
  southU : ℚ
  northU : ℚ
  statusGate : ℚ
  statusRoll : ℚ
deriving DecidableEq

/-- Every draw of the record lies in `[0,1)`, as `rand.Float64` guarantees. -/
def RandValid (r : MoveRand) : Prop :=
  (0 ≤ r.turnRoll ∧ r.turnRoll < 1) ∧ (0 ≤ r.turnU ∧ r.turnU < 1) ∧
  (0 ≤ r.accRoll ∧ r.accRoll < 1) ∧ (0 ≤ r.accU ∧ r.accU < 1) ∧
  (0 ≤ r.westU ∧ r.westU < 1) ∧ (0 ≤ r.eastU ∧ r.eastU < 1) ∧
  (0 ≤ r.southU ∧ r.southU < 1) ∧ (0 ≤ r.northU ∧ r.northU < 1) ∧
  (0 ≤ r.statusGate ∧ r.statusGate < 1) ∧ (0 ≤ r.statusRoll ∧ r.statusRoll < 1)

/-- Heading perturbation step of Driver.Move (main.go lines 122-134): with
probability `turnProbability` add a turn of up to `±turnMaxAngle`, then wrap with
`if h < 0 then h + 2π else if h > 2π then h - 2π`. -/
def Driver.moveTurn (pi heading : ℚ) (r : MoveRand) : ℚ :=
  if r.turnRoll < turnProbability then
    let turnAmount := (r.turnU * 2 - 1) * turnMaxAngle
    let h := heading + turnAmount
    if h < 0 then h + 2 * pi else if h > 2 * pi then h - 2 * pi else h
  else heading

/-- Speed perturbation step of Driver.Move (main.go lines 137-148): with
probability `accelerationProb` scale the speed by up to `±accelerationMax` and
clamp into `[minSpeed, maxSpeed]`. -/
def Driver.moveSpeed (speed : ℚ) (r : MoveRand) : ℚ :=
  if r.accRoll < accelerationProb then
    let speedChange := 1 + (r.accU * 2 - 1) * accelerationMax
    let s := speed * speedChange
    if s < minSpeed then minSpeed else if s > maxSpeed then maxSpeed else s
  else speed

/-- Longitude boundary avoidance of Driver.Move (main.go lines 161-167). -/
def Driver.moveAvoidLon (pi newLon heading : ℚ) (r : MoveRand) : ℚ :=
  if newLon < minLon + boundaryBuffer then r.westU * pi
  else if newLon > maxLon - boundaryBuffer then pi + r.eastU * pi
  else heading

/-- Latitude boundary avoidance of Driver.Move (main.go lines 169-175). -/
def Driver.moveAvoidLat (pi newLat heading : ℚ) (r : MoveRand) : ℚ :=
  if newLat < minLat + boundaryBuffer then pi * (3/2) + r.southU * pi
  else if newLat > maxLat - boundaryBuffer then r.northU * pi
  else heading

/-- Hard clamp of a final coordinate into world bounds (main.go lines 185-195). -/
def clampCoord (lo hi v : ℚ) : ℚ :=
  if v < lo then lo else if v > hi then hi else v

/-- Status transition of Driver.Move (main.go lines 201-210): with probability
0.01 resample the status from the fixed categorical distribution. -/
def Driver.moveStatus (status : DriverStatus) (r : MoveRand) : DriverStatus :=
  if r.statusGate < 1/100 then
    if r.statusRoll < driverStatusProbs then .Available
    else if r.statusRoll < driverStatusProbs + 1/5 then .Busy
    else .Offline
  else status

/-- Driver.Move (main.go lines 113-211): offline drivers do not move; otherwise
perturb heading and speed, compute the candidate displacement, redirect the
heading away from any world edge the candidate position approaches, recompute the
displacement from the final heading, clamp into world bounds, and possibly
resample the status. -/
def Driver.Move (pi : ℚ) (sinF cosF : ℚ → ℚ) (d : Driver) (deltaTime : ℚ)
    (r : MoveRand) : Driver :=
  if d.Status = DriverStatus.Offline then d
  else
    let heading1 := Driver.moveTurn pi d.Heading r
    let speed1 := Driver.moveSpeed d.Speed r
    let newLon := d.Lon + sinF heading1 * speed1 * deltaTime
    let newLat := d.Lat + cosF heading1 * speed1 * deltaTime
    let heading2 := Driver.moveAvoidLon pi newLon heading1 r
    let heading3 := Driver.moveAvoidLat pi newLat heading2 r
    let newLon2 := d.Lon + sinF heading3 * speed1 * deltaTime
    let newLat2 := d.Lat + cosF heading3 * speed1 * deltaTime
    Driver.mk d.ID (clampCoord minLon maxLon newLon2) (clampCoord minLat maxLat newLat2)
      (Driver.moveStatus d.Status r) speed1 heading3

/-- The position-matching test of the correlation loops (main.go lines 694 and
848): a driver matches an index point when both coordinates agree within 0.0001. -/
def matchesPoint (d : Driver) (p : Point) : Bool :=
  decide (|d.Lon - p.X| < 1/10000) && decide (|d.Lat - p.Y| < 1/10000)

/-- The query-result correlation loop shared by SendDriversToClient (main.go
lines 690-723) and GetNearbyDriversHandler (main.go lines 844-880), projected to
the driver selected per point: for each returned index point, scan the driver
store in order and keep the FIRST driver within 0.0001 of the point in both
coordinates (the `break`); a point matching no driver contributes nothing. -/
def Simulation.correlate (drivers : List Driver) (points : List Point) :
    List (Point × Driver) :=
  points.filterMap (fun p => (drivers.find? (fun d => matchesPoint d p)).map
    (fun d => (p, d)))

/-- The radius resolution of SendDriversToClient (main.go lines 675-681): a
client radius below 0.01 is silently replaced by the default searchRadius. -/
def Simulation.resolveClientRadius (clientRadius : ℚ) : ℚ :=
  if clientRadius < 1/100 then searchRadius else clientRadius

/-- The radius resolution of GetNearbyDriversHandler (main.go lines 785 and
820-824): the default searchRadius, overridden by any radius that parses. -/
def GetNearbyDriversRadius (radiusParam : Option ℚ) : ℚ :=
  match radiusParam with
  | some val => val
  | none => searchRadius

/-- The square query window of QueryNearbyDrivers (main.go lines 436-441). -/
def searchBoundsFor (lon lat radius : ℚ) : Bounds :=
  ⟨lon - radius, lat - radius, lon + radius, lat + radius⟩

/-! ### Claim theorems: simulation -/

/-- RandValid is a decidable conjunction of rational comparisons. -/
instance (r : MoveRand) : Decidable (RandValid r) := by
  unfold RandValid
  infer_instance

set_option maxRecDepth 1024 in
/-- C7 counterexample: the correlation loops match by approximate position, not
by id.  With driver 1 at (44, 36) and driver 2 at (44.00005, 36), the index point
lying at driver 2's exact coordinates is correlated to driver 1 (the first driver
within 0.0001 in both axes), so the id is not the key used and the owning entity
is not the one returned. -/
theorem claim_C7_correlation_counterexample :
    Simulation.correlate
        [⟨1, 44, 36, DriverStatus.Available, 0, 0⟩,
         ⟨2, 880001/20000, 36, DriverStatus.Available, 0, 0⟩]
        [⟨880001/20000, 36⟩] =
      [(⟨880001/20000, 36⟩, ⟨1, 44, 36, DriverStatus.Available, 0, 0⟩)] ∧
    (⟨2, 880001/20000, 36, DriverStatus.Available, 0, 0⟩ : Driver).Lon =
      (⟨880001/20000, 36⟩ : Point).X ∧
    (⟨2, 880001/20000, 36, DriverStatus.Available, 0, 0⟩ : Driver).Lat =
      (⟨880001/20000, 36⟩ : Point).Y ∧
    (⟨1, 44, 36, DriverStatus.Available, 0, 0⟩ : Driver).ID ≠
      (⟨2, 880001/20000, 36, DriverStatus.Available, 0, 0⟩ : Driver).ID := by
  have hA : matchesPoint ⟨1, 44, 36, DriverStatus.Available, 0, 0⟩
      ⟨880001/20000, 36⟩ = true := by
    simp only [matchesPoint, Bool.and_eq_true, decide_eq_true_eq, abs_lt]
    norm_num
  refine ⟨?_, rfl, rfl, by decide⟩
  simp [Simulation.correlate, List.find?, hA]

/-- C7 (amended): every correlation the query answer paths produce pairs an index
point with the first driver in store order whose coordinates both lie within
0.0001 of the point — an approximate-position match, with the entity id playing
no role in the selection. -/
theorem claim_C7_correlation_by_epsilon (drivers : List Driver)
    (points : List Point) (p : Point) (d : Driver)
    (h : (p, d) ∈ Simulation.correlate drivers points) :
    p ∈ points ∧ d ∈ drivers ∧ |d.Lon - p.X| < 1/10000 ∧ |d.Lat - p.Y| < 1/10000 := by
  simp only [Simulation.correlate, List.mem_filterMap] at h
  obtain ⟨q, hq, hfq⟩ := h
  rw [Option.map_eq_some'] at hfq
  obtain ⟨d0, hfind, heq⟩ := hfq
  injection heq with h1 h2
  subst h1
  subst h2
  have hmem := List.mem_of_find?_eq_some hfind
  have hpred := List.find?_some hfind
  simp only [matchesPoint, Bool.and_eq_true, decide_eq_true_eq] at hpred
  exact ⟨hq, hmem, hpred.1, hpred.2⟩

theorem claim_C7_correlation_by_epsilon_witness :
    (⟨44, 36⟩ : Point) ∈ [(⟨44, 36⟩ : Point)] ∧
    (⟨1, 44, 36, DriverStatus.Available, 0, 0⟩ : Driver) ∈
      [(⟨1, 44, 36, DriverStatus.Available, 0, 0⟩ : Driver)] ∧
    |(⟨1, 44, 36, DriverStatus.Available, 0, 0⟩ : Driver).Lon -
      (⟨44, 36⟩ : Point).X| < 1/10000 ∧
    |(⟨1, 44, 36, DriverStatus.Available, 0, 0⟩ : Driver).Lat -
      (⟨44, 36⟩ : Point).Y| < 1/10000 :=
  claim_C7_correlation_by_epsilon
    [⟨1, 44, 36, DriverStatus.Available, 0, 0⟩] [⟨44, 36⟩]
    ⟨44, 36⟩ ⟨1, 44, 36, DriverStatus.Available, 0, 0⟩
    (by with_unfolding_all decide)

set_option maxRecDepth 1024 in
/-- C8 counterexample: a zero-speed driver can move.  If the speed-perturbation
rule fires, the zero speed is scaled (still zero) and then clamped UP to
minSpeed, and the recomputed displacement is non-zero: with sin(heading) = 1 the
longitude changes by minSpeed·Δt. -/
theorem claim_C8_zero_speed_counterexample :
    ¬(∀ (pi : ℚ) (sinF cosF : ℚ → ℚ) (d : Driver) (deltaTime : ℚ) (r : MoveRand),
        RandValid r → (∀ x, sinF x ^ 2 + cosF x ^ 2 = 1) → d.Speed = 0 →
        (Driver.Move pi sinF cosF d deltaTime r).Lon = d.Lon ∧
          (Driver.Move pi sinF cosF d deltaTime r).Lat = d.Lat) := by
  intro h
  have hc := h (157/50) (fun _ => 1) (fun _ => 0)
    ⟨1, 44, 36, DriverStatus.Available, 0, 1⟩ 1
    ⟨1/2, 0, 0, 1/2, 0, 0, 0, 0, 1/2, 0⟩
    (by with_unfolding_all decide) (fun x => by simp) rfl
  exact absurd hc.1 (by with_unfolding_all decide)

/-- C8 (amended): a zero-speed entity inside the world bounds keeps its exact
position across a Move step provided the speed-perturbation rule does not fire;
when that rule fires the speed is clamped up from 0 to minSpeed and the entity
may move (see the counterexample), and an out-of-bounds position would be moved
by the final hard clamp. -/
theorem claim_C8_zero_speed_amended (pi : ℚ) (sinF cosF : ℚ → ℚ) (d : Driver)
    (deltaTime : ℚ) (r : MoveRand) (hspeed : d.Speed = 0)
    (hacc : ¬(r.accRoll < accelerationProb))
    (h1 : minLon ≤ d.Lon) (h2 : d.Lon ≤ maxLon)
    (h3 : minLat ≤ d.Lat) (h4 : d.Lat ≤ maxLat) :
    (Driver.Move pi sinF cosF d deltaTime r).Lon = d.Lon ∧
      (Driver.Move pi sinF cosF d deltaTime r).Lat = d.Lat := by
  by_cases hst : d.Status = DriverStatus.Offline
  · simp [Driver.Move, hst]
  · have hs1 : Driver.moveSpeed d.Speed r = 0 := by
      rw [hspeed]
      simp only [Driver.moveSpeed]
      rw [if_neg hacc]
    simp only [Driver.Move, if_neg hst]
    rw [hs1]
    simp only [mul_zero, zero_mul, add_zero]
    refine ⟨?_, ?_⟩ <;> unfold clampCoord
    · rw [if_neg (not_lt.mpr h1), if_neg (not_lt.mpr h2)]
    · rw [if_neg (not_lt.mpr h3), if_neg (not_lt.mpr h4)]

theorem claim_C8_zero_speed_amended_witness :
    (Driver.Move (157/50) (fun _ => 1) (fun _ => 0)
        ⟨1, 44, 36, DriverStatus.Available, 0, 1⟩ 1
        ⟨1/2, 0, 1/2, 0, 0, 0, 0, 0, 1/2, 0⟩).Lon =
      (⟨1, 44, 36, DriverStatus.Available, 0, 1⟩ : Driver).Lon ∧
    (Driver.Move (157/50) (fun _ => 1) (fun _ => 0)
        ⟨1, 44, 36, DriverStatus.Available, 0, 1⟩ 1
        ⟨1/2, 0, 1/2, 0, 0, 0, 0, 0, 1/2, 0⟩).Lat =
      (⟨1, 44, 36, DriverStatus.Available, 0, 1⟩ : Driver).Lat :=
  claim_C8_zero_speed_amended (157/50) (fun _ => 1) (fun _ => 0)
    ⟨1, 44, 36, DriverStatus.Available, 0, 1⟩ 1
    ⟨1/2, 0, 1/2, 0, 0, 0, 0, 0, 1/2, 0⟩ rfl
    (by with_unfolding_all decide) (by with_unfolding_all decide)
    (by with_unfolding_all decide) (by with_unfolding_all decide)
    (by with_unfolding_all decide)

/-- C9 counterexample: no caller-facing boundary rejects a degenerate or negative
radius.  The WebSocket path silently replaces a radius of -1 with the default
searchRadius = 0.15 and answers the query; the HTTP path uses the parsed -1
unchanged.  No InvalidArgument-style error value exists anywhere on these paths. -/
theorem claim_C9_invalid_radius_counterexample :
    Simulation.resolveClientRadius (-1) = searchRadius ∧
    ¬((-1 : ℚ) = searchRadius) ∧
    GetNearbyDriversRadius (some (-1)) = -1 := by
  with_unfolding_all decide

/-- Every point of a query on a degenerate rectangle (maxX < minX) fails the
containment test, so Query returns nothing. -/
theorem Quadtree.query_degenerate_empty : ∀ (qt : Quadtree) (b : Bounds),
    b.MaxX < b.MinX → qt.Query b = [] := by
  intro qt
  induction qt with
  | leaf cap ns b0 =>
    intro b hb
    simp only [Quadtree.Query]
    by_cases hno : Quadtree.Intersects (.leaf cap ns b0) b = false
    · rw [if_pos hno]
    · rw [if_neg hno]
      rw [List.filter_eq_nil_iff]
      intro p hp hcontains
      simp only [Bounds.contains_iff] at hcontains
      obtain ⟨c1, c2, -, -⟩ := hcontains
      linarith
  | quad cap ns b0 nw ne sw se ihnw ihne ihsw ihse =>
    intro b hb
    simp only [Quadtree.Query]
    by_cases hno : Quadtree.Intersects (.quad cap ns b0 nw ne sw se) b = false
    · rw [if_pos hno]
    · rw [if_neg hno, ihnw b hb, ihne b hb, ihsw b hb, ihse b hb]
      have hf : ns.filter (fun node => b.contains node.X node.Y) = [] := by
        rw [List.filter_eq_nil_iff]
        intro p hp hcontains
        simp only [Bounds.contains_iff] at hcontains
        obtain ⟨c1, c2, -, -⟩ := hcontains
        linarith
      rw [hf]
      simp

/-- C9 (amended): instead of rejecting, the WebSocket boundary substitutes the
default for any radius below 0.01 — so the radius it queries with is never below
0.01 — while the HTTP boundary passes any parsed radius through unvalidated; a
negative radius reaching the index yields an inverted window that contains no
point, so the query silently returns an empty result. -/
theorem claim_C9_no_rejection_amended :
    (∀ clientRadius : ℚ, 1/100 ≤ Simulation.resolveClientRadius clientRadius) ∧
    (∀ val : ℚ, GetNearbyDriversRadius (some val) = val) ∧
    (∀ (qt : Quadtree) (lon lat radius : ℚ), radius < 0 →
        Quadtree.QueryResults qt (searchBoundsFor lon lat radius) = []) := by
  refine ⟨?_, fun val => rfl, ?_⟩
  · intro cr
    unfold Simulation.resolveClientRadius
    by_cases h : cr < 1/100
    · rw [if_pos h]
      norm_num [searchRadius]
    · rw [if_neg h]
      linarith [not_lt.mp h]
  · intro qt lon lat radius hr
    unfold Quadtree.QueryResults
    apply Quadtree.query_degenerate_empty
    show (searchBoundsFor lon lat radius).MaxX < (searchBoundsFor lon lat radius).MinX
    simp only [searchBoundsFor]
    linarith

theorem claim_C9_no_rejection_amended_witness :
    1/100 ≤ Simulation.resolveClientRadius (-1) ∧
    GetNearbyDriversRadius (some (-1)) = -1 ∧
    Quadtree.QueryResults (Quadtree.New demoWorld 4) (searchBoundsFor 5 5 (-1)) = [] :=
  ⟨claim_C9_no_rejection_amended.1 (-1), claim_C9_no_rejection_amended.2.1 (-1),
    claim_C9_no_rejection_amended.2.2 (Quadtree.New demoWorld 4) 5 5 (-1) (by norm_num)⟩

set_option maxRecDepth 1024 in
/-- C10 counterexample: the heading does not stay in [0, 2π).  A driver at the
south edge triggers the south-boundary redirection, which assigns
1.5π + u·π ∈ [1.5π, 2.5π); with u = 0.9 the new heading is 2.4π, strictly above
2π, and no later step wraps it back. -/
theorem claim_C10_heading_range_counterexample :
    ¬(∀ (pi : ℚ) (sinF cosF : ℚ → ℚ) (d : Driver) (deltaTime : ℚ) (r : MoveRand),
        RandValid r → 3 < pi → pi < 16/5 → 0 ≤ d.Heading → d.Heading < 2 * pi →
        0 ≤ (Driver.Move pi sinF cosF d deltaTime r).Heading ∧
          (Driver.Move pi sinF cosF d deltaTime r).Heading < 2 * pi) := by
  intro h
  have hc := h (157/50) (fun _ => 0) (fun _ => 1)
    ⟨1, 43, 71/2, DriverStatus.Available, 0, 0⟩ 1
    ⟨1/2, 0, 1/2, 0, 0, 0, 9/10, 0, 1/2, 0⟩
    (by with_unfolding_all decide) (by norm_num) (by norm_num)
    (by with_unfolding_all decide) (by with_unfolding_all decide)
  exact absurd hc.2 (by with_unfolding_all decide)

/-- The heading-perturbation step keeps a heading of [0, 2π) within [0, 2π]: the
wrap uses strict comparisons, so the boundary value 2π itself is reachable and
kept. -/
theorem moveTurn_bounds (pi heading : ℚ) (r : MoveRand)
    (hu0 : 0 ≤ r.turnU) (hu1 : r.turnU < 1) (hpi : 3 < pi)
    (hh0 : 0 ≤ heading) (hh1 : heading < 2 * pi) :
    0 ≤ Driver.moveTurn pi heading r ∧ Driver.moveTurn pi heading r ≤ 2 * pi := by
  simp only [Driver.moveTurn, turnMaxAngle]
  by_cases ht : r.turnRoll < turnProbability
  · rw [if_pos ht]
    have ha1 : -(3/20) ≤ (r.turnU * 2 - 1) * (3/20) := by nlinarith
    have ha2 : (r.turnU * 2 - 1) * (3/20) < 3/20 := by nlinarith
    by_cases hw1 : heading + (r.turnU * 2 - 1) * (3/20) < 0
    · rw [if_pos hw1]
      exact ⟨by linarith, by linarith⟩
    · rw [if_neg hw1]
      by_cases hw2 : heading + (r.turnU * 2 - 1) * (3/20) > 2 * pi
      · rw [if_pos hw2]
        exact ⟨by linarith, by linarith⟩
      · rw [if_neg hw2]
        exact ⟨by linarith [not_lt.mp hw1], by linarith [not_lt.mp hw2]⟩
  · rw [if_neg ht]
    exact ⟨hh0, by linarith⟩

/-- Longitude boundary avoidance keeps the heading within [0, 2π] (west
redirection lands in [0, π), east in [π, 2π)). -/
theorem moveAvoidLon_bounds (pi newLon heading : ℚ) (r : MoveRand)
    (hw0 : 0 ≤ r.westU) (hw1 : r.westU < 1) (he0 : 0 ≤ r.eastU) (he1 : r.eastU < 1)
    (hpi : 3 < pi) (hh0 : 0 ≤ heading) (hh1 : heading ≤ 2 * pi) :
    0 ≤ Driver.moveAvoidLon pi newLon heading r ∧
      Driver.moveAvoidLon pi newLon heading r ≤ 2 * pi := by
  simp only [Driver.moveAvoidLon]
  by_cases hc1 : newLon < minLon + boundaryBuffer
  · rw [if_pos hc1]
    have hub : r.westU * pi < 1 * pi := mul_lt_mul_of_pos_right hw1 (by linarith)
    exact ⟨mul_nonneg hw0 (by linarith), by linarith⟩
  · rw [if_neg hc1]
    by_cases hc2 : newLon > maxLon - boundaryBuffer
    · rw [if_pos hc2]
      have hlb : 0 ≤ r.eastU * pi := mul_nonneg he0 (by linarith)
      have hub : r.eastU * pi < 1 * pi := mul_lt_mul_of_pos_right he1 (by linarith)
      exact ⟨by linarith, by linarith⟩
    · rw [if_neg hc2]
      exact ⟨hh0, hh1⟩

/-- Latitude boundary avoidance can push the heading above 2π: the south
redirection lands in [1.5π, 2.5π).  Bound: the result stays within [0, 2.5π). -/
theorem moveAvoidLat_bounds (pi newLat heading : ℚ) (r : MoveRand)
    (hs0 : 0 ≤ r.southU) (hs1 : r.southU < 1) (hn0 : 0 ≤ r.northU) (hn1 : r.northU < 1)
    (hpi : 3 < pi) (hh0 : 0 ≤ heading) (hh1 : heading ≤ 2 * pi) :
    0 ≤ Driver.moveAvoidLat pi newLat heading r ∧
      Driver.moveAvoidLat pi newLat heading r < 5/2 * pi := by
  simp only [Driver.moveAvoidLat]
  by_cases hc1 : newLat < minLat + boundaryBuffer
  · rw [if_pos hc1]
    have hlb : 0 ≤ r.southU * pi := mul_nonneg hs0 (by linarith)
    have hub : r.southU * pi < 1 * pi := mul_lt_mul_of_pos_right hs1 (by linarith)
    exact ⟨by linarith, by linarith⟩
  · rw [if_neg hc1]
    by_cases hc2 : newLat > maxLat - boundaryBuffer
    · rw [if_pos hc2]
      have hub : r.northU * pi < 1 * pi := mul_lt_mul_of_pos_right hn1 (by linarith)
      exact ⟨mul_nonneg hn0 (by linarith), by linarith⟩
    · rw [if_neg hc2]
      exact ⟨hh0, by linarith⟩

/-- C10 (amended): after a Move step the heading lies in [0, 5π/2), not [0, 2π):
the turn wrap can return exactly 2π (strict comparison in the wrap), the south
redirection can return up to but excluding 5π/2, and every other path stays in
[0, 2π]. -/
theorem claim_C10_heading_range_amended (pi : ℚ) (sinF cosF : ℚ → ℚ) (d : Driver)
    (deltaTime : ℚ) (r : MoveRand) (hr : RandValid r) (hpi1 : 3 < pi)
    (hpi2 : pi < 16/5) (hh0 : 0 ≤ d.Heading) (hh1 : d.Heading < 2 * pi) :
    0 ≤ (Driver.Move pi sinF cosF d deltaTime r).Heading ∧
      (Driver.Move pi sinF cosF d deltaTime r).Heading < 5/2 * pi := by
  obtain ⟨-, ⟨hu0, hu1⟩, -, -, ⟨hw0, hw1⟩, ⟨he0, he1⟩, ⟨hs0, hs1⟩, ⟨hn0, hn1⟩, -, -⟩ := hr
  by_cases hst : d.Status = DriverStatus.Offline
  · simp only [Driver.Move, if_pos hst]
    exact ⟨hh0, by linarith⟩
  · simp only [Driver.Move, if_neg hst]
    have ht := moveTurn_bounds pi d.Heading r hu0 hu1 hpi1 hh0 hh1
    have hlon := moveAvoidLon_bounds pi
      (d.Lon + sinF (Driver.moveTurn pi d.Heading r) * Driver.moveSpeed d.Speed r * deltaTime)
      (Driver.moveTurn pi d.Heading r) r hw0 hw1 he0 he1 hpi1 ht.1 ht.2
    exact moveAvoidLat_bounds pi
      (d.Lat + cosF (Driver.moveTurn pi d.Heading r) * Driver.moveSpeed d.Speed r * deltaTime)
      (Driver.moveAvoidLon pi
        (d.Lon + sinF (Driver.moveTurn pi d.Heading r) * Driver.moveSpeed d.Speed r * deltaTime)
        (Driver.moveTurn pi d.Heading r) r) r hs0 hs1 hn0 hn1 hpi1 hlon.1 hlon.2

set_option maxRecDepth 1024 in
theorem claim_C10_heading_range_amended_witness :
    0 ≤ (Driver.Move (157/50) (fun _ => 0) (fun _ => 1)
        ⟨1, 43, 71/2, DriverStatus.Available, 0, 0⟩ 1
        ⟨1/2, 0, 1/2, 0, 0, 0, 9/10, 0, 1/2, 0⟩).Heading ∧
      (Driver.Move (157/50) (fun _ => 0) (fun _ => 1)
        ⟨1, 43, 71/2, DriverStatus.Available, 0, 0⟩ 1
        ⟨1/2, 0, 1/2, 0, 0, 0, 9/10, 0, 1/2, 0⟩).Heading < 5/2 * (157/50) :=
  claim_C10_heading_range_amended (157/50) (fun _ => 0) (fun _ => 1)
    ⟨1, 43, 71/2, DriverStatus.Available, 0, 0⟩ 1
    ⟨1/2, 0, 1/2, 0, 0, 0, 9/10, 0, 1/2, 0⟩
    (by with_unfolding_all decide) (by norm_num) (by norm_num)
    (by with_unfolding_all decide) (by with_unfolding_all decide)
